import Mathlib

/-!
A shallow embedding of the reactive core of the `uioz/vue` repository
(`src/core/observer/{watcher,dep,scheduler,index}.js` and the array-method
interceptor), together with theorems settling the frozen claims about it.
Every definition is translated from the JavaScript source named in its doc
comment; ghost fields (logs, counters) record externally visible events
(`addSub`, `notify`, warnings, run order) so that the claims can be stated.
-/

namespace VueModel

/-! ## Watcher dependency tracking (`src/core/observer/watcher.js`) -/

/-- Dependency-tracking state of one `Watcher`, from
`src/core/observer/watcher.js`.  `deps`/`newDeps` are the current and
pending lists of collected `Dep`s (identified by their numeric `dep.id`),
`depIds`/`newDepIds` the mirror id sets (JS `Set`s, modelled as lists with
set semantics).  `subscribed` projects the Dep-side state onto this
watcher: the ids of the `Dep`s whose `subs` array contains the watcher
(`dep.addSub` pushes it, `dep.removeSub` removes the single occurrence via
the `remove` util, i.e. `List.erase`). -/
structure WDeps where
  deps : List Nat
  newDeps : List Nat
  depIds : List Nat
  newDepIds : List Nat
  subscribed : List Nat
deriving DecidableEq, Repr

/-- `Watcher.addDep` (watcher.js lines 181-208): skip ids already in
`newDepIds`; otherwise record the dep in the pending set/list and, if it is
not in the current `depIds` either, subscribe via `dep.addSub(this)`. -/
def addDep (w : WDeps) (id : Nat) : WDeps :=
  if id ∈ w.newDepIds then w
  else
    { w with
      newDepIds := w.newDepIds ++ [id]
      newDeps := w.newDeps ++ [id]
      subscribed := if id ∈ w.depIds then w.subscribed else w.subscribed ++ [id] }

/-- The unsubscription loop of `Watcher.cleanupDeps`: `while (i--)` walks
`deps` from the back and calls `dep.removeSub(this)` on every dep whose id
is not in `newDepIds`. -/
def removeStaleSubs (deps newDepIds subscribed : List Nat) : List Nat :=
  deps.foldr (fun d s => if d ∈ newDepIds then s else s.erase d) subscribed

/-- `Watcher.cleanupDeps` (watcher.js lines 213-244): unsubscribe from the
stale deps, swap the pending sets/lists into the current ones and clear the
pending ones. -/
def cleanupDeps (w : WDeps) : WDeps :=
  { deps := w.newDeps
    newDeps := []
    depIds := w.newDepIds
    newDepIds := []
    subscribed := removeStaleSubs w.deps w.newDepIds w.subscribed }

/-- The dependency-tracking effect of one `Watcher.get()` whose getter
touches the reactive properties with dep ids `touched` (in reading order):
each touch calls `dep.depend()` which calls `addDep` on the active watcher,
and the `finally` block runs `cleanupDeps`. -/
def getTrack (w : WDeps) (touched : List Nat) : WDeps :=
  cleanupDeps (touched.foldl addDep w)

/-! ## The active-watcher target stack (`src/core/observer/dep.js`) -/

/-- `pushTarget` (dep.js): push onto `targetStack`; the stack is modelled
head-first, so the head is `Dep.target`. -/
def pushTarget (stack : List Nat) (wid : Nat) : List Nat :=
  wid :: stack

/-- `popTarget` (dep.js): pop the stack; `Dep.target` becomes the new top
(`targetStack[targetStack.length - 1]`, `undefined` when empty). -/
def popTarget (stack : List Nat) : List Nat :=
  stack.tail

/-- `Dep.target` as a function of the target stack. -/
def depTarget (stack : List Nat) : Option Nat :=
  stack.head?

/-- Behaviour of one getter invocation inside `Watcher.get`: the dep ids it
touches before returning (or before throwing, when `throws` is set), and
the further dep ids `traverse` touches for `deep` watchers. -/
structure GetterRun where
  touched : List Nat
  throws : Bool
  deepTouched : List Nat

/-- Result of `Watcher.get`: the target stack afterwards, the watcher's
dep-tracking state afterwards, and whether the exception escaped `get()`
(non-user watchers rethrow, user watchers route it to `handleError`). -/
structure GetOutcome where
  stack : List Nat
  w : WDeps
  propagated : Bool
deriving DecidableEq, Repr

/-- `Watcher.get` (watcher.js lines 128-174): `pushTarget(this)`, run the
getter inside `try` (collecting deps via `addDep`), `catch` rethrows unless
`this.user`, and the `finally` block runs `traverse` (for `deep` watchers,
only if a value was produced), `popTarget()` and `this.cleanupDeps()` on
both the normal and the throwing path. -/
def watcherGet (stack : List Nat) (w : WDeps) (wid : Nat) (deep user : Bool)
    (g : GetterRun) : GetOutcome :=
  let stack1 := pushTarget stack wid
  let w1 := g.touched.foldl addDep w
  let propagated := g.throws && !user
  let w2 := if deep && !g.throws then g.deepTouched.foldl addDep w1 else w1
  let stack2 := popTarget stack1
  let w3 := cleanupDeps w2
  { stack := stack2, w := w3, propagated := propagated }

/-! ## `Dep.notify` (`src/core/observer/dep.js` lines 47-66) -/

/-- `Dep.notify` with `config.async = true` (the production default, so the
dev-only re-sort is not taken): snapshot the subscriber list
(`this.subs.slice()`), then call `update()` on each snapshot entry.  Each
`update` may mutate the live `subs` (sync watchers re-run `get` which
adds/removes subscriptions); `upd wid live` returns the live list after
watcher `wid`'s update ran on live list `live`.  Returns the final live
subscriber list and the log of watchers whose `update()` was invoked, in
invocation order. -/
def notifyFanout (upd : Nat → List Nat → List Nat) (subs : List Nat) :
    List Nat × List Nat :=
  let snapshot := subs
  snapshot.foldl (fun acc wid => (upd wid acc.1, acc.2 ++ [wid])) (subs, [])

/-! ## The scheduler (`src/core/observer/scheduler.js`)

The model covers a development build with the default `config.async = true`
(so the circular-update guard is active and `queueWatcher` defers the flush
via `nextTick` instead of flushing synchronously).  Watchers are identified
by their numeric id; `effects wid` lists the watcher ids that
`watcher.run()` hands to `queueWatcher` (via setters firing `dep.notify`)
while watcher `wid` runs, in order.  `runLog`/`warnLog` are ghost logs of
the `watcher.run()` invocations and of the infinite-update warnings. -/

/-- `MAX_UPDATE_COUNT` (scheduler.js line 21). -/
def MAX_UPDATE_COUNT : Nat := 100

/-- The scheduler's module state: `queue`, the presence map `has` (the set
of ids with `has[id] === true`), the dev re-enqueue counters `circular`,
the `waiting`/`flushing` flags and the flush cursor `index`, plus the two
ghost logs. -/
structure SchedState where
  queue : List Nat
  has : List Nat
  circular : List (Nat × Nat)
  waiting : Bool
  flushing : Bool
  index : Nat
  runLog : List Nat
  warnLog : List Nat
deriving DecidableEq, Repr

/-- The scheduler state before anything is queued. -/
def idleSched : SchedState :=
  { queue := [], has := [], circular := [], waiting := false
    flushing := false, index := 0, runLog := [], warnLog := [] }

/-- The `while` scan of `queueWatcher`'s flushing branch:
`let i = queue.length - 1; while (i > index && queue[i].id > watcher.id) i--`,
returning the final `i`.  The argument is the current `i`. -/
def insertScan (queue : List Nat) (index wid : Nat) : Nat → Nat
  | 0 => 0
  | i + 1 =>
    if index < i + 1 ∧ wid < queue.getD (i + 1) 0 then
      insertScan queue index wid i
    else i + 1

/-- The splice position of `queueWatcher`'s flushing branch
(`queue.splice(i + 1, 0, watcher)`); for an empty queue the JS scan starts
at `i = -1` and splices at `0`. -/
def queueInsertPos (queue : List Nat) (index wid : Nat) : Nat :=
  match queue with
  | [] => 0
  | _ => insertScan queue index wid (queue.length - 1) + 1

/-- `queueWatcher` (scheduler.js lines 198-258): skip ids already present in
`has`; otherwise mark presence and either append (not flushing) or splice
into the queue after the scan position (flushing).  The trailing
`if (!waiting)` arms the deferred flush; the `nextTick(flushSchedulerQueue)`
call itself is host scheduling, modelled by the caller invoking
`flushSchedulerQueue` afterwards. -/
def queueWatcher (s : SchedState) (wid : Nat) : SchedState :=
  if wid ∈ s.has then s
  else
    let s1 := { s with has := wid :: s.has }
    let s2 :=
      if !s1.flushing then { s1 with queue := s1.queue ++ [wid] }
      else { s1 with queue := s1.queue.insertIdx (queueInsertPos s1.queue s1.index wid) wid }
    if !s2.waiting then { s2 with waiting := true } else s2

/-- Look up a dev re-enqueue counter (`circular[id] || 0`). -/
def circCount (c : List (Nat × Nat)) (wid : Nat) : Nat :=
  match c.find? (fun p => p.1 = wid) with
  | some p => p.2
  | none => 0

/-- Store a dev re-enqueue counter (`circular[id] = n`). -/
def circSet (c : List (Nat × Nat)) (wid n : Nat) : List (Nat × Nat) :=
  match c with
  | [] => [(wid, n)]
  | p :: rest => if p.1 = wid then (wid, n) :: rest else p :: circSet rest wid n

/-- One iteration of the `for` loop in `flushSchedulerQueue` (scheduler.js
lines 105-139): read `queue[index]`, call its `before` hook (external),
clear its presence bit (`has[id] = null`), call `watcher.run()` (whose
notifications re-enter `queueWatcher`), and in a dev build bump the
re-enqueue counter when the watcher is present again; past
`MAX_UPDATE_COUNT` warn about the offending watcher and `break` (the
returned flag). -/
def flushStep (effects : Nat → List Nat) (s : SchedState) : SchedState × Bool :=
  let wid := s.queue.getD s.index 0
  let s1 := { s with has := s.has.erase wid, runLog := s.runLog ++ [wid] }
  let s2 := (effects wid).foldl queueWatcher s1
  if wid ∈ s2.has then
    let n := circCount s2.circular wid + 1
    let s3 := { s2 with circular := circSet s2.circular wid n }
    if MAX_UPDATE_COUNT < n then ({ s3 with warnLog := s3.warnLog ++ [wid] }, true)
    else (s3, false)
  else (s2, false)

/-- The `for (index = 0; index < queue.length; index++)` loop of
`flushSchedulerQueue`; `queue.length` is re-read every iteration because
watchers may be spliced in while it runs.  `fuel` bounds the number of
iterations (the JS loop can run forever in a production build; every
theorem below supplies enough fuel for the runs it talks about). -/
def flushLoop (effects : Nat → List Nat) : Nat → SchedState → SchedState
  | 0, s => s
  | fuel + 1, s =>
    if s.index < s.queue.length then
      match flushStep effects s with
      | (s1, true) => s1
      | (s1, false) => flushLoop effects fuel { s1 with index := s1.index + 1 }
    else s

/-- `resetSchedulerState` (scheduler.js lines 37-44); the ghost logs are
kept. -/
def resetSchedulerState (s : SchedState) : SchedState :=
  { s with index := 0, queue := [], has := [], circular := []
           waiting := false, flushing := false }

/-- `flushSchedulerQueue` (scheduler.js lines 80-159): set `flushing`,
sort the queue ascending by watcher id (`queue.sort((a, b) => a.id - b.id)`,
modelled by insertion sort — ids are unique so any comparison sort yields
the same list), run the cursor loop, then reset the scheduler state (the
`updated`/`activated` hook fan-out afterwards does not touch this state). -/
def flushSchedulerQueue (effects : Nat → List Nat) (fuel : Nat) (s : SchedState) :
    SchedState :=
  let s1 := { s with flushing := true
                     queue := s.queue.insertionSort (· ≤ ·)
                     index := 0 }
  resetSchedulerState (flushLoop effects fuel s1)

/-- Proof-internal invariant for the flush-order argument about a pair of
watcher ids `a < b` that were both queued when the flush started: either
`b` has already run, with some run of `a` logged before `b`'s first logged
run, or `b` has not run yet — it is still pending at or past the cursor
with its presence bit set (so re-entrant `queueWatcher(b)` calls are
deduplicated away), and `a` has either run already or is pending ahead of
the first pending `b`. -/
def pairInv (a b : Nat) (s : SchedState) : Prop :=
  (∃ l1 l2, s.runLog = l1 ++ b :: l2 ∧ b ∉ l1 ∧ a ∈ l1) ∨
  (b ∉ s.runLog ∧ b ∈ s.has ∧
    ∃ u1 u2, s.queue.drop s.index = u1 ++ b :: u2 ∧ b ∉ u1 ∧
      (a ∈ s.runLog ∨ a ∈ u1))

/-! ## `observe` and the `Observer` class (`src/core/observer/index.js`)

JavaScript object identity (`===` on objects) is modelled with an explicit
heap: addresses are `Nat`, a `JVal` is either a primitive (anything
`isObject` rejects) or a reference.  Per object the model keeps exactly the
facts `observe` branches on — `value instanceof VNode`, being an `Observer`
instance (for the `__ob__ instanceof Observer` check), `Array.isArray ||
isPlainObject` (class instances such as `Observer` and `Dep` satisfy
`isPlainObject`, whose check is `toString === "[object Object]"`),
`Object.isExtensible`, `_isVue` — plus the own (non-enumerable) `__ob__`
property, the `vmCount` counter and the values `walk`/`observeArray`
recurse into (own enumerable property values for records, elements for
arrays; `__ob__` is non-enumerable, so never among them).
`isServerRendering()` is `false`. -/

inductive JVal where
  | prim
  | ref (a : Nat)
deriving DecidableEq, Repr

structure JObj where
  isVNode : Bool
  isObsInstance : Bool
  arrayOrPlain : Bool
  extensible : Bool
  isVue : Bool
  obField : Option Nat
  vmCount : Nat
  children : List JVal
deriving DecidableEq, Repr

structure Heap where
  objs : List JObj
deriving DecidableEq, Repr

def Heap.get (h : Heap) (a : Nat) : Option JObj :=
  h.objs[a]?

/-- Allocate a fresh object, returning its address. -/
def Heap.alloc (h : Heap) (o : JObj) : Heap × Nat :=
  ({ objs := h.objs ++ [o] }, h.objs.length)

def Heap.modifyObj (h : Heap) (a : Nat) (f : JObj → JObj) : Heap :=
  match h.get a with
  | some o => { objs := h.objs.set a (f o) }
  | none => h

/-- `def(value, "x5F_x5F_ob")` stores the observer address. -/
def Heap.setObField (h : Heap) (a ob : Nat) : Heap :=
  h.modifyObj a (fun o => { o with obField := some ob })

def Heap.bumpVmCount (h : Heap) (a : Nat) : Heap :=
  h.modifyObj a (fun o => { o with vmCount := o.vmCount + 1 })

/-- The `hasOwn(value, "__ob__") && value.__ob__ instanceof Observer`
test of `observe` (index.js line 180). -/
def hasObObserver (h : Heap) (o : JObj) : Bool :=
  match o.obField with
  | some ad =>
    match h.get ad with
    | some oo => oo.isObsInstance
    | none => false
  | none => false

/-- The heap object allocated by `new Dep()` inside the `Observer`
constructor: a plain extensible record with no own enumerable data the
model tracks. -/
def depObj : JObj :=
  { isVNode := false, isObsInstance := false, arrayOrPlain := true
    extensible := true, isVue := false, obField := none, vmCount := 0
    children := [] }

/-- The heap object for a `new Observer(value)` instance: a plain
extensible class instance whose own enumerable properties are `value`,
`dep` and `vmCount` (a primitive), so `walk`ing it recurses into `value`
and the `Dep`. -/
def obsObj (v : JVal) (depA : Nat) : JObj :=
  { isVNode := false, isObsInstance := true, arrayOrPlain := true
    extensible := true, isVue := false, obField := none, vmCount := 0
    children := [v, .ref depA] }

/-- `observe(value, asRootData)` (index.js lines 169-196) together with the
`Observer` constructor (lines 46-94): non-objects and `VNode`s are skipped;
a value whose own `__ob__` holds an `Observer` returns it; otherwise, when
`shouldObserve` is set and the value is an extensible plain record or array
that is not a component instance, a new `Observer` is constructed — it
allocates its `Dep`, tags the value with `__ob__` *before* walking
(`def(value, '__ob__', this)`), then `walk`/`observeArray` call `observe`
on every child value.  With `asRootData` the returned observer's `vmCount`
is bumped.  `fuel` bounds the recursion depth (the JS recursion terminates
on cyclic data exactly because of the `__ob__` tag; theorems supply enough
fuel for the heaps they talk about). -/
def observeV (shouldObserve : Bool) : Nat → Heap → JVal → Bool → Heap × Option Nat
  | _, h, .prim, _ => (h, none)
  | fuel, h, .ref a, asRoot =>
    match h.get a with
    | none => (h, none)
    | some o =>
      if o.isVNode then (h, none)
      else
        let hr : Heap × Option Nat :=
          if hasObObserver h o then (h, o.obField)
          else if shouldObserve && o.arrayOrPlain && o.extensible && !o.isVue then
            match fuel with
            | 0 => (h, none)
            | fuel' + 1 =>
              let hA := h.alloc depObj
              let hB := hA.1.alloc (obsObj (.ref a) hA.2)
              let h3 := hB.1.setObField a hB.2
              let h4 := o.children.foldl
                (fun hh c => (observeV shouldObserve fuel' hh c false).1) h3
              (h4, some hB.2)
          else (h, none)
        match hr.2, asRoot with
        | some ob, true => (hr.1.bumpVmCount ob, some ob)
        | _, _ => hr

/-- The address at which the `Observer` constructed by `observe`'s create
branch is allocated (its `Dep` is allocated just before it). -/
def obsAddrOf (h : Heap) (a : Nat) : Nat :=
  ((h.alloc depObj).1.alloc (obsObj (.ref a) (h.alloc depObj).2)).2

/-- The heap produced by `new Observer(value)` inside `observe` for the
object at `a` with the given child values: allocate the `Dep` and the
`Observer`, tag the value with `__ob__`, then `walk`/`observeArray` the
children. -/
def observeCreateHeap (so : Bool) (fuel : Nat) (h : Heap) (a : Nat)
    (children : List JVal) : Heap :=
  children.foldl (fun hh c => (observeV so fuel hh c false).1)
    (((h.alloc depObj).1.alloc (obsObj (.ref a) (h.alloc depObj).2)).1.setObField a
      (obsAddrOf h a))

/-- The spec equation `observe(observe(v)) === observe(v)` evaluated left
to right as JS does: the inner `observe(v)`, then `observe` of its result
(an `Observer` object, or `undefined` — a primitive — when the inner call
returned nothing), then the right-hand `observe(v)`; the heap threads
through all three calls, and `===` on the returned `Observer`s is address
equality. -/
def observeComposedCheck (so : Bool) (fuel : Nat) (h : Heap) (v : JVal) : Bool :=
  let r1 := observeV so fuel h v false
  let arg := match r1.2 with
    | some a => JVal.ref a
    | none => JVal.prim
  let r2 := observeV so fuel r1.1 arg false
  let r3 := observeV so fuel r2.1 v false
  decide (r2.2 = r3.2)

/-- Bounds-closedness of a heap: every `__ob__` field refers to an
allocated object (as every real JS reference does).  `observe` preserves
this and the theorems about it assume it. -/
def closedHeapB (h : Heap) : Bool :=
  h.objs.all (fun o =>
    match o.obField with
    | some c => decide (c < h.objs.length)
    | none => true)

/-- Proposition form of `closedHeapB`. -/
def ClosedHeap (h : Heap) : Prop :=
  ∀ b o, h.get b = some o → ∀ c, o.obField = some c → c < h.objs.length

/-- The `__ob__` field of the object at an address, if any. -/
def obFieldAt (h : Heap) (a : Nat) : Option Nat :=
  match h.get a with
  | some o => o.obField
  | none => none

/-- Whether the object at address `a` exists and carries an own `__ob__`
holding an `Observer` instance. -/
def obValid (h : Heap) (a : Nat) : Bool :=
  match h.get a with
  | some o => hasObObserver h o
  | none => false

/-- Two heap objects agreeing on everything but `__ob__` and `vmCount`. -/
def sameShape (o o2 : JObj) : Prop :=
  o2.isVNode = o.isVNode ∧ o2.isObsInstance = o.isObsInstance ∧
  o2.arrayOrPlain = o.arrayOrPlain ∧ o2.extensible = o.extensible ∧
  o2.isVue = o.isVue ∧ o2.children = o.children

/-- What one `observe` call may do to pre-existing heap objects: it keeps
them (possibly changing only their `__ob__` field and `vmCount`), and an
object that already had a valid observer keeps exactly that observer. -/
def heapStep (h h2 : Heap) : Prop :=
  (∀ b o, h.get b = some o → ∃ o2, h2.get b = some o2 ∧ sameShape o o2) ∧
  (∀ a, obValid h a = true → obValid h2 a = true ∧ obFieldAt h2 a = obFieldAt h a)

/-! ## The array-method interceptor (`src/core/observer/array.js`,
provided as `src/unnamed/part_006`)

Array elements are modelled as integers (they are opaque to the
interceptor).  The untouched `Array.prototype` methods are host built-ins;
they are embedded with their standard ECMAScript semantics (`sort` with the
default comparator orders by the decimal string form of the element). -/

inductive ArrMethod where
  | push | pop | shift | unshift | splice | sort | reverse
deriving DecidableEq, Repr

/-- `methodsToPatch` (part_006 lines 11-19). -/
def methodsToPatch : List String :=
  ["push", "pop", "shift", "unshift", "splice", "sort", "reverse"]

/-- What a JS array method returns. -/
inductive JsRet where
  | num (n : Nat)
  | elemOpt (x : Option Int)
  | arr (l : List Int)
  | self (l : List Int)
deriving DecidableEq, Repr

/-- ECMAScript clamping of the `splice` start argument. -/
def jsSpliceStart (s : Int) (len : Nat) : Nat :=
  if s < 0 then (len + s).toNat else min s.toNat len

/-- The original `Array.prototype` method, applied to an argument list and
an array: the mutated array and the returned value. -/
def originalMethod : ArrMethod → List Int → List Int → List Int × JsRet
  | .push, args, l => (l ++ args, .num (l ++ args).length)
  | .pop, _, l => (l.dropLast, .elemOpt l.getLast?)
  | .shift, _, l => (l.tail, .elemOpt l.head?)
  | .unshift, args, l => (args ++ l, .num (args ++ l).length)
  | .splice, args, l =>
    let len := l.length
    let start := jsSpliceStart (args.getD 0 0) len
    let delCount : Nat :=
      if args.length = 0 then 0
      else if args.length = 1 then len - start
      else min (max (args.getD 1 0) 0).toNat (len - start)
    let items := args.drop 2
    (l.take start ++ items ++ l.drop (start + delCount),
     .arr ((l.drop start).take delCount))
  | .sort, _, l =>
    let l1 := l.insertionSort (fun a b => toString a ≤ toString b)
    (l1, .self l1)
  | .reverse, _, l => (l.reverse, .self l.reverse)

/-- Externally visible effects of one intercepted call on an observed
array: the returned value, the array contents afterwards, the argument
`observeArray` was called with (if it was called — `inserted` is an array,
hence truthy, even when empty), and how many times `ob.dep.notify()` ran. -/
structure ArrEffects where
  result : JsRet
  elems : List Int
  observed : Option (List Int)
  notified : Nat
deriving DecidableEq, Repr

/-- The `mutator` interceptor (part_006 lines 34-70): apply the original
method, compute `inserted` by the `switch` on the method name, observe the
inserted elements when there are argument slots for them, notify the
observer's dep, and return the original result. -/
def mutator (m : ArrMethod) (args : List Int) (l : List Int) : ArrEffects :=
  let r := originalMethod m args l
  let inserted : Option (List Int) :=
    match m with
    | .push => some args
    | .unshift => some args
    | .splice => some (args.drop 2)
    | _ => none
  { result := r.2, elems := r.1, observed := inserted, notified := 1 }

/-! ## `reactiveSetter` inside `defineReactive`
(`src/core/observer/index.js` lines 208-323) -/

/-- A JS value as far as the setter's equality test is concerned: `NaN`
(the only value with `x !== x`), or an ordinary value compared by `===`
(`undef` stands for `undefined`, the initial `val` of a re-wrapped
getter-only accessor). -/
inductive RVal where
  | nan
  | undef
  | val (n : Int)
deriving DecidableEq, Repr

/-- JS strict equality on `RVal`: `NaN` is unequal to everything, itself
included. -/
def strictEq : RVal → RVal → Bool
  | .nan, _ => false
  | _, .nan => false
  | a, b => a = b

/-- The state closed over by one reactive property's accessor pair:
`val` (the closure variable), whether the property's *original* descriptor
had a getter / a setter (`const getter = property && property.get`, etc.),
the value the original getter currently produces, and a ghost count of
`dep.notify()` calls. -/
structure RProp where
  val : RVal
  hasGetter : Bool
  hasSetter : Bool
  getterVal : RVal
  notifies : Nat
deriving DecidableEq, Repr

/-- `const value = getter ? getter.call(obj) : val` — the current value as
both accessors read it. -/
def currentVal (p : RProp) : RVal :=
  if p.hasGetter then p.getterVal else p.val

/-- `reactiveSetter` (index.js lines 280-322): read the current value
(through the original getter when there is one); return without notifying
when the new value is `===` the old one or both are `NaN`
(`newVal === value || (newVal !== newVal && value !== value)`); run the
dev-only `customSetter` (no notification); return for an accessor that had
a getter but no setter (`#7981`); otherwise write through the original
setter or the closure variable, re-observe the new value (`childOb`, not
tracked here), and call `dep.notify()`. -/
def reactiveSetter (p : RProp) (newVal : RVal) : RProp :=
  let value := currentVal p
  if strictEq newVal value || (!strictEq newVal newVal && !strictEq value value) then p
  else if p.hasGetter && !p.hasSetter then p
  else
    let p1 := if p.hasSetter then p else { p with val := newVal }
    { p1 with notifies := p1.notifies + 1 }

/-! ## `set` (`src/core/observer/index.js` lines 330-360)

The `set` entry point needs more of a target's shape than the setter
model: a target is an array (elements plus possible non-index own
properties) or a record; keys are array indices or strings.  `__ob__` is
modelled by `Option Nat` carrying the observer's `vmCount`.  Ghost fields
record the dev warning, the container `dep.notify()` and whether
`defineReactive` ran. -/

inductive SKey where
  | idx (n : Int)
  | str (s : String)
deriving DecidableEq, Repr

/-- Own enumerable keys of `Object.prototype`-less interest: the keys
`key in Object.prototype` finds on a plain record's prototype chain. -/
def objectProtoKeys : List String :=
  ["hasOwnProperty", "isPrototypeOf", "propertyIsEnumerable",
   "toLocaleString", "toString", "valueOf", "constructor"]

/-- `isValidArrayIndex` (shared util): a non-negative integer.  (The util
also accepts decimal strings via `parseFloat`; the embedding writes
numeric keys with `SKey.idx`.) -/
def isValidArrayIndex : SKey → Bool
  | .idx n => decide (0 ≤ n)
  | .str _ => false

structure ArrTarget where
  elems : List (Option Int)
  extra : List (SKey × Int)
  ob : Option Nat
deriving DecidableEq, Repr

structure RecTarget where
  fields : List (SKey × Int)
  isVue : Bool
  ob : Option Nat
deriving DecidableEq, Repr

inductive SetTarget where
  | arr (a : ArrTarget)
  | record (r : RecTarget)
deriving DecidableEq, Repr

structure SetOutcome where
  target : SetTarget
  warned : Bool
  notifiedContainer : Bool
  definedReactive : Bool
  observedInserted : Option (List (Option Int))
  ret : Int
deriving DecidableEq, Repr

/-- Update an association list at a key, appending when absent (a plain JS
property write). -/
def assocPut (l : List (SKey × Int)) (k : SKey) (v : Int) : List (SKey × Int) :=
  match l with
  | [] => [(k, v)]
  | p :: rest => if p.1 = k then (k, v) :: rest else p :: assocPut rest k v

/-- `key in target` for a plain record: an own field or an
`Object.prototype` member. -/
def recHasKey (r : RecTarget) (k : SKey) : Bool :=
  (r.fields.any (fun p => p.1 = k)) ||
    (match k with
     | .str s => s ∈ objectProtoKeys
     | .idx _ => false)

/-- The source's `key in target && !(key in Object.prototype)` test for a
plain record. -/
def recKeyPresent (r : RecTarget) (k : SKey) : Bool :=
  recHasKey r k &&
    !(match k with
      | .str s => decide (s ∈ objectProtoKeys)
      | .idx _ => false)

/-- Truthiness of `ob && ob.vmCount` for a target carrying observer state
`ob : Option Nat` (the observer's `vmCount`). -/
def obVmPositive (ob : Option Nat) : Bool :=
  match ob with
  | some c => decide (0 < c)
  | none => false

/-- Association-list lookup (reading a JS own property). -/
def assocGet (l : List (SKey × Int)) (k : SKey) : Option Int :=
  (l.find? (fun p => p.1 = k)).map (fun p => p.2)

/-- `key in target` for an array: an in-bounds index, `length`, an own
extra property, or an `Object.prototype` member (the `Array.prototype`
method names are irrelevant to the claims and omitted). -/
def arrHasKey (a : ArrTarget) (k : SKey) : Bool :=
  (match k with
   | .idx n => decide (0 ≤ n) && decide (n.toNat < a.elems.length)
   | .str s => (s = "length") || s ∈ objectProtoKeys) ||
  a.extra.any (fun p => p.1 = k)

/-- `target.length = Math.max(target.length, key)` followed by
`target.splice(key, 1, val)` on the (observed or plain) array: pad with
holes up to the new length, then replace/insert at `key`. -/
def arraySpliceSet (elems : List (Option Int)) (k : Nat) (v : Int) :
    List (Option Int) :=
  let len := max elems.length k
  let padded := elems ++ List.replicate (len - elems.length) none
  padded.take k ++ [some v] ++ padded.drop (k + 1)

/-- `set(target, key, val)` (index.js lines 330-360).  For an array with a
valid index: extend `length` and `splice` the value in — on an *observed*
array the spliced-in `mutator` additionally observes `[val]` and notifies
the container dep.  For a target that already has the key (and not merely
via `Object.prototype`): plain assignment.  Then the guard refusing
additions on a component instance (`_isVue`) or a root `$data`
(`ob.vmCount > 0`): dev warning, nothing else.  An unobserved target gets a
plain assignment.  Otherwise `defineReactive(ob.value, key, val)` and
`ob.dep.notify()`.  Every path returns `val`. -/
def setApi (t : SetTarget) (key : SKey) (v : Int) : SetOutcome :=
  match t with
  | .arr a =>
    if isValidArrayIndex key then
      let k := (match key with | .idx n => n.toNat | .str _ => 0)
      { target := .arr { a with elems := arraySpliceSet a.elems k v }
        warned := false
        notifiedContainer := a.ob.isSome
        definedReactive := false
        observedInserted := if a.ob.isSome then some [some v] else none
        ret := v }
    else if arrHasKey a key then
      { target := .arr { a with extra := assocPut a.extra key v }
        warned := false, notifiedContainer := false, definedReactive := false
        observedInserted := none, ret := v }
    else if obVmPositive a.ob then
      { target := t, warned := true, notifiedContainer := false
        definedReactive := false, observedInserted := none, ret := v }
    else if a.ob.isNone then
      { target := .arr { a with extra := assocPut a.extra key v }
        warned := false, notifiedContainer := false, definedReactive := false
        observedInserted := none, ret := v }
    else
      { target := .arr { a with extra := assocPut a.extra key v }
        warned := false, notifiedContainer := true, definedReactive := true
        observedInserted := none, ret := v }
  | .record r =>
    if recKeyPresent r key then
      { target := .record { r with fields := assocPut r.fields key v }
        warned := false, notifiedContainer := false, definedReactive := false
        observedInserted := none, ret := v }
    else if r.isVue || obVmPositive r.ob then
      { target := t, warned := true, notifiedContainer := false
        definedReactive := false, observedInserted := none, ret := v }
    else if r.ob.isNone then
      { target := .record { r with fields := assocPut r.fields key v }
        warned := false, notifiedContainer := false, definedReactive := false
        observedInserted := none, ret := v }
    else
      { target := .record { r with fields := assocPut r.fields key v }
        warned := false, notifiedContainer := true, definedReactive := true
        observedInserted := none, ret := v }

/-! ## Theorems -/

/-- C9: `Watcher.get()` is exception-safe with respect to the
active-watcher stack: for every watcher, even when its getter throws, the
`finally` block pops the watcher from the target stack (restoring
`Dep.target` to the value it had before the call) and runs `cleanupDeps`
(leaving the pending `newDeps`/`newDepIds` sets empty), so no failed getter
can leave a stale watcher installed as the global dependency-collection
target; the exception escapes `get()` exactly for non-user watchers. -/
theorem watcher_get_exception_safe :
    ∀ (stack : List Nat) (w : WDeps) (wid : Nat) (deep user : Bool) (g : GetterRun),
      (watcherGet stack w wid deep user g).stack = stack ∧
      depTarget (watcherGet stack w wid deep user g).stack = depTarget stack ∧
      (watcherGet stack w wid deep user g).w.newDeps = [] ∧
      (watcherGet stack w wid deep user g).w.newDepIds = [] ∧
      (watcherGet stack w wid deep user g).propagated = (g.throws && !user) := by
  intro stack w wid deep user g
  refine ⟨?_, ?_, ?_, ?_, ?_⟩ <;>
    simp [watcherGet, pushTarget, popTarget, cleanupDeps]

/-- The update log of the snapshot fan-out loop collects exactly the
snapshot, whatever the updates do to the live list. -/
theorem notify_foldl_log (upd : Nat → List Nat → List Nat) :
    ∀ (l cur log : List Nat),
      (l.foldl (fun acc wid => (upd wid acc.1, acc.2 ++ [wid])) (cur, log)).2
        = log ++ l := by
  intro l
  induction l with
  | nil => intro cur log; simp
  | cons x xs ih =>
    intro cur log
    simp only [List.foldl_cons]
    rw [ih]
    simp

/-- C10: `Dep.notify()` snapshots the subscriber list (`subs.slice()`)
before fanning out, so each watcher subscribed at the moment `notify` is
called receives exactly one `update()` call, in subscription order, and
any subscriptions added or removed while the fan-out is running do not
change which watchers are notified by that call: the invocation log equals
the snapshot, independent of the update behaviour `upd`. -/
theorem dep_notify_snapshot :
    ∀ (upd : Nat → List Nat → List Nat) (subs : List Nat),
      (notifyFanout upd subs).2 = subs ∧
      (subs.Nodup → ∀ wid, ((notifyFanout upd subs).2.count wid)
          = if wid ∈ subs then 1 else 0) := by
  intro upd subs
  have hlog : (notifyFanout upd subs).2 = subs := by
    simpa using notify_foldl_log upd subs subs []
  refine ⟨hlog, ?_⟩
  intro hnd wid
  rw [hlog]
  by_cases hm : wid ∈ subs
  · rw [if_pos hm]
    exact List.count_eq_one_of_mem hnd hm
  · rw [if_neg hm]
    exact List.count_eq_zero_of_not_mem hm

/-- Witness for C10: three subscribers, each of whose updates removes
itself from the live list; all three still get exactly one update, in
order. -/
theorem dep_notify_snapshot_witness :
    (notifyFanout (fun w l => l.erase w) [3, 1, 2]).2 = [3, 1, 2] ∧
    ((notifyFanout (fun w l => l.erase w) [3, 1, 2]).2.count 1) = 1 := by
  refine ⟨(dep_notify_snapshot _ _).1, ?_⟩
  have h := (dep_notify_snapshot (fun w l => l.erase w) [3, 1, 2]).2 (by decide) 1
  rw [if_pos (by decide)] at h
  exact h

/-- C5: exactly the seven methods `push, pop, shift, unshift, splice, sort,
reverse` are intercepted (`methodsToPatch`), and each interception performs
the mutation with the original `Array.prototype` method, calls
`observeArray` on the full argument list for `push`/`unshift`, on the
arguments from index 2 on for `splice`, and not at all for the other four,
then notifies the array observer's dep exactly once and returns the
original method's result. -/
theorem array_mutator_interception :
    methodsToPatch = ["push", "pop", "shift", "unshift", "splice", "sort", "reverse"] ∧
    ∀ (m : ArrMethod) (args l : List Int),
      (mutator m args l).elems = (originalMethod m args l).1 ∧
      (mutator m args l).result = (originalMethod m args l).2 ∧
      (mutator m args l).notified = 1 ∧
      (mutator m args l).observed =
        (if m = .push ∨ m = .unshift then some args
         else if m = .splice then some (args.drop 2)
         else none) := by
  refine ⟨rfl, ?_⟩
  intro m args l
  cases m <;> simp [mutator]

/-- A value is strictly unequal to itself exactly when it is `NaN`. -/
theorem strictEq_self_eq_false_iff (x : RVal) :
    strictEq x x = false ↔ x = RVal.nan := by
  cases x <;> simp [strictEq]

/-- Counterexample to C6 as stated: a reactive property re-wrapped from an
accessor that had a getter but no setter.  Its current value is `0`;
assigning `1` is a change (not `===`, neither side `NaN`), yet the setter
returns before `dep.notify()` (the `#7981` guard), so nothing is notified. -/
theorem reactiveSetter_change_no_notify_cex :
    strictEq (RVal.val 1) (RVal.val 0) = false ∧
    RVal.val 1 ≠ RVal.nan ∧ (RVal.val 0 : RVal) ≠ RVal.nan ∧
    currentVal ⟨RVal.undef, true, false, RVal.val 0, 0⟩ = RVal.val 0 ∧
    reactiveSetter ⟨RVal.undef, true, false, RVal.val 0, 0⟩ (RVal.val 1)
      = ⟨RVal.undef, true, false, RVal.val 0, 0⟩ := by
  decide

/-- C6 (amended): assigning a value that is `===` the current value, or
`NaN` over `NaN`, leaves the property untouched and never notifies; any
assignment that does change the value calls `dep.notify()` exactly once —
unless the property was re-wrapped from an accessor with a getter and no
setter, in which case the write is dropped without notifying — and, for a
plain data property, stores the new value. -/
theorem reactiveSetter_notify_amended :
    ∀ (p : RProp) (nv : RVal),
      ((strictEq nv (currentVal p) = true ∨
          (nv = RVal.nan ∧ currentVal p = RVal.nan)) →
        reactiveSetter p nv = p) ∧
      (strictEq nv (currentVal p) = false →
        ¬(nv = RVal.nan ∧ currentVal p = RVal.nan) →
        ¬(p.hasGetter = true ∧ p.hasSetter = false) →
        (reactiveSetter p nv).notifies = p.notifies + 1 ∧
        (p.hasSetter = false → (reactiveSetter p nv).val = nv)) := by
  intro p nv
  constructor
  · rintro (heq | ⟨hnv, hcv⟩)
    · simp [reactiveSetter, heq]
    · rw [reactiveSetter]
      rw [hnv, hcv]
      simp [strictEq]
  · intro h1 h2 h3
    have hcond : (strictEq nv (currentVal p) ||
        (!strictEq nv nv && !strictEq (currentVal p) (currentVal p))) = false := by
      rw [h1, Bool.false_or]
      by_cases hnv : nv = RVal.nan
      · have hcv : ¬ currentVal p = RVal.nan := fun hc => h2 ⟨hnv, hc⟩
        have : ¬ strictEq (currentVal p) (currentVal p) = false := by
          rw [strictEq_self_eq_false_iff]; exact hcv
        simp [eq_true_of_ne_false this]
      · have : ¬ strictEq nv nv = false := by
          rw [strictEq_self_eq_false_iff]; exact hnv
        simp [eq_true_of_ne_false this]
    have hacc : (p.hasGetter && !p.hasSetter) = false := by
      cases hG : p.hasGetter <;> cases hS : p.hasSetter <;> simp_all
    rw [reactiveSetter, hcond, if_neg (by simp), hacc, if_neg (by simp)]
    cases hS : p.hasSetter <;> simp [hS]

/-- Witness for C6 (amended): `NaN` over `NaN` is silently dropped, and an
ordinary change on a plain data property notifies once and stores the
value. -/
theorem reactiveSetter_notify_amended_witness :
    reactiveSetter ⟨RVal.nan, false, false, RVal.undef, 0⟩ RVal.nan
      = ⟨RVal.nan, false, false, RVal.undef, 0⟩ ∧
    (reactiveSetter ⟨RVal.val 0, false, false, RVal.undef, 3⟩ (RVal.val 7)).notifies = 4 ∧
    (reactiveSetter ⟨RVal.val 0, false, false, RVal.undef, 3⟩ (RVal.val 7)).val
      = RVal.val 7 := by
  refine ⟨(reactiveSetter_notify_amended _ _).1 (Or.inr (by constructor <;> rfl)), ?_, ?_⟩
  · exact ((reactiveSetter_notify_amended _ _).2 (by decide) (by decide) (by decide)).1
  · exact ((reactiveSetter_notify_amended _ _).2 (by decide) (by decide) (by decide)).2 rfl

/-- Counterexample to C7 as stated: an *unobserved* plain record with a new
key.  The claim prescribes defining a new reactive property and notifying
the container dep (the target is neither a component instance nor a root
`$data`), but the code's `if (!ob)` branch performs a plain assignment with
no `defineReactive` and no notification. -/
theorem set_unobserved_record_cex :
    recHasKey ⟨[], false, none⟩ (.str "k") = false ∧
    (setApi (.record ⟨[], false, none⟩) (.str "k") 1).definedReactive = false ∧
    (setApi (.record ⟨[], false, none⟩) (.str "k") 1).notifiedContainer = false ∧
    (setApi (.record ⟨[], false, none⟩) (.str "k") 1).warned = false ∧
    (setApi (.record ⟨[], false, none⟩) (.str "k") 1).target
      = SetTarget.record ⟨[(.str "k", 1)], false, none⟩ := by
  decide

/-- Counterexample to C2 as stated: watchers 1 and 5 are queued, and
watcher 5's run enqueues watcher 3 while the flush is running.  Watcher 3
is inserted right after the cursor and runs after watcher 5, so the
execution order `[1, 5, 3]` of the flush is not ascending in watcher id. -/
theorem flush_midflush_order_cex :
    (flushSchedulerQueue (fun i => if i = 5 then [3] else []) 10
        (queueWatcher (queueWatcher idleSched 1) 5)).runLog = [1, 5, 3] ∧
    ¬ List.Sorted (· ≤ ·) [1, 5, 3] := by
  constructor
  · decide
  · decide

/-- `addDep` never touches the current dep list/set. -/
theorem addDep_deps (w : WDeps) (id : Nat) :
    (addDep w id).deps = w.deps ∧ (addDep w id).depIds = w.depIds := by
  by_cases h : id ∈ w.newDepIds <;> simp [addDep, h]

/-- Membership in the pending id set after one `addDep`. -/
theorem addDep_mem_newDepIds (w : WDeps) (id d : Nat) :
    d ∈ (addDep w id).newDepIds ↔ d ∈ w.newDepIds ∨ d = id := by
  by_cases h : id ∈ w.newDepIds
  · simp only [addDep, if_pos h]
    constructor
    · exact fun hm => Or.inl hm
    · rintro (hm | rfl)
      · exact hm
      · exact h
  · simp [addDep, h]

/-- Membership in the Dep-side subscription set after one `addDep`:
`dep.addSub` fires exactly for a dep in neither the pending nor the current
id set. -/
theorem addDep_mem_subscribed (w : WDeps) (id d : Nat) :
    d ∈ (addDep w id).subscribed ↔
      d ∈ w.subscribed ∨ (d = id ∧ d ∉ w.depIds ∧ d ∉ w.newDepIds) := by
  by_cases h1 : id ∈ w.newDepIds
  · simp only [addDep, if_pos h1]
    constructor
    · exact fun hm => Or.inl hm
    · rintro (hm | ⟨rfl, _, hni⟩)
      · exact hm
      · exact absurd h1 hni
  · by_cases h2 : id ∈ w.depIds
    · simp only [addDep, if_neg h1, if_pos h2]
      constructor
      · exact fun hm => Or.inl hm
      · rintro (hm | ⟨rfl, hdi, _⟩)
        · exact hm
        · exact absurd h2 hdi
    · simp only [addDep, if_neg h1, if_neg h2, List.mem_append, List.mem_singleton]
      constructor
      · rintro (hm | rfl)
        · exact Or.inl hm
        · exact Or.inr ⟨rfl, h2, h1⟩
      · rintro (hm | ⟨rfl, _, _⟩)
        · exact Or.inl hm
        · exact Or.inr rfl

/-- Fold version of the `addDep` membership facts over a whole getter run. -/
theorem foldl_addDep_spec (ts : List Nat) :
    ∀ (w : WDeps),
      (ts.foldl addDep w).deps = w.deps ∧
      (ts.foldl addDep w).depIds = w.depIds ∧
      (∀ d, d ∈ (ts.foldl addDep w).newDepIds ↔ d ∈ w.newDepIds ∨ d ∈ ts) ∧
      (∀ d, d ∈ (ts.foldl addDep w).subscribed ↔
        d ∈ w.subscribed ∨ (d ∈ ts ∧ d ∉ w.depIds ∧ d ∉ w.newDepIds)) := by
  induction ts with
  | nil => intro w; simp
  | cons t rest ih =>
    intro w
    obtain ⟨ihdeps, ihdepIds, ihnew, ihsub⟩ := ih (addDep w t)
    have hd := addDep_deps w t
    refine ⟨by rw [List.foldl_cons, ihdeps, hd.1],
            by rw [List.foldl_cons, ihdepIds, hd.2], ?_, ?_⟩
    · intro d
      rw [List.foldl_cons, ihnew d, addDep_mem_newDepIds]
      simp only [List.mem_cons]
      tauto
    · intro d
      rw [List.foldl_cons, ihsub d, addDep_mem_subscribed, hd.2]
      have hni := addDep_mem_newDepIds w t d
      simp only [List.mem_cons]
      constructor
      · rintro ((hm | ⟨rfl, hdi, hni0⟩) | ⟨hr, hdi, hni1⟩)
        · exact Or.inl hm
        · exact Or.inr ⟨Or.inl rfl, hdi, hni0⟩
        · exact Or.inr ⟨Or.inr hr, hdi, fun hm => hni1 (hni.mpr (Or.inl hm))⟩
      · rintro (hm | ⟨(rfl | hr), hdi, hni0⟩)
        · exact Or.inl (Or.inl hm)
        · exact Or.inl (Or.inr ⟨rfl, hdi, hni0⟩)
        · by_cases hdt : d = t
          · exact Or.inl (Or.inr ⟨hdt, hdi, hni0⟩)
          · exact Or.inr ⟨hr, hdi, fun hm => (hni.mp hm).elim hni0 hdt⟩

/-- `newDeps` and `newDepIds` receive identical appends, so they stay equal
as lists once equal. -/
theorem foldl_addDep_newDeps_eq (ts : List Nat) :
    ∀ (w : WDeps), w.newDeps = w.newDepIds →
      (ts.foldl addDep w).newDeps = (ts.foldl addDep w).newDepIds := by
  induction ts with
  | nil => intro w h; simpa using h
  | cons t rest ih =>
    intro w h
    rw [List.foldl_cons]
    apply ih
    by_cases h1 : t ∈ w.newDepIds <;> simp [addDep, h1, h]

/-- The pending id list stays duplicate-free: an id is appended only when
absent. -/
theorem foldl_addDep_newDepIds_nodup (ts : List Nat) :
    ∀ (w : WDeps), w.newDepIds.Nodup → (ts.foldl addDep w).newDepIds.Nodup := by
  induction ts with
  | nil => exact fun w h => h
  | cons t rest ih =>
    intro w h
    rw [List.foldl_cons]
    apply ih
    by_cases h1 : t ∈ w.newDepIds
    · simpa [addDep, h1] using h
    · have hnodup : (t :: w.newDepIds).Nodup := List.nodup_cons.mpr ⟨h1, h⟩
      simpa [addDep, h1] using
        (List.perm_append_singleton t w.newDepIds).nodup_iff.mpr hnodup

/-- The Dep-side subscription list stays duplicate-free, given that it only
mentions ids from `depIds ∪ newDepIds` (the watcher invariant): `addSub`
only fires for ids in neither set. -/
theorem foldl_addDep_subscribed_nodup (ts : List Nat) :
    ∀ (w : WDeps),
      w.subscribed.Nodup → (∀ d ∈ w.subscribed, d ∈ w.depIds ∨ d ∈ w.newDepIds) →
      (ts.foldl addDep w).subscribed.Nodup := by
  induction ts with
  | nil => exact fun w h _ => h
  | cons t rest ih =>
    intro w h hmem
    rw [List.foldl_cons]
    apply ih
    · by_cases h1 : t ∈ w.newDepIds
      · simpa [addDep, h1] using h
      · by_cases h2 : t ∈ w.depIds
        · simpa [addDep, h1, h2] using h
        · have hts : t ∉ w.subscribed := fun hm => (hmem t hm).elim h2 h1
          have hnodup : (t :: w.subscribed).Nodup := List.nodup_cons.mpr ⟨hts, h⟩
          simpa [addDep, h1, h2] using
            (List.perm_append_singleton t w.subscribed).nodup_iff.mpr hnodup
    · intro d hd
      have hsub := (addDep_mem_subscribed w t d).mp hd
      have hni := addDep_mem_newDepIds w t d
      have hdeq := (addDep_deps w t).2
      rcases hsub with hm | ⟨rfl, _, _⟩
      · rcases hmem d hm with hdi | hnim
        · exact Or.inl (hdeq ▸ hdi)
        · exact Or.inr (hni.mpr (Or.inl hnim))
      · exact Or.inr (hni.mpr (Or.inr rfl))

/-- One step of the unsubscription fold. -/
theorem removeStaleSubs_cons (d : Nat) (rest newDepIds subscribed : List Nat) :
    removeStaleSubs (d :: rest) newDepIds subscribed =
      if d ∈ newDepIds then removeStaleSubs rest newDepIds subscribed
      else (removeStaleSubs rest newDepIds subscribed).erase d := rfl

/-- The unsubscription fold only ever removes entries. -/
theorem removeStaleSubs_sublist (deps newDepIds subscribed : List Nat) :
    (removeStaleSubs deps newDepIds subscribed).Sublist subscribed := by
  induction deps with
  | nil => simp [removeStaleSubs]
  | cons d rest ih =>
    rw [removeStaleSubs_cons]
    by_cases hd : d ∈ newDepIds
    · rw [if_pos hd]; exact ih
    · rw [if_neg hd]; exact (List.erase_sublist _ _).trans ih

/-- Membership after the unsubscription fold: an entry survives iff it was
subscribed and is not a stale dep (in `deps` but not in `newDepIds`). -/
theorem removeStaleSubs_mem (deps newDepIds subscribed : List Nat)
    (hnd : subscribed.Nodup) :
    ∀ x, x ∈ removeStaleSubs deps newDepIds subscribed ↔
      x ∈ subscribed ∧ (x ∈ deps → x ∈ newDepIds) := by
  induction deps with
  | nil => intro x; simp [removeStaleSubs]
  | cons d rest ih =>
    intro x
    rw [removeStaleSubs_cons]
    have hRnd : (removeStaleSubs rest newDepIds subscribed).Nodup :=
      (removeStaleSubs_sublist rest newDepIds subscribed).nodup hnd
    by_cases hd : d ∈ newDepIds
    · rw [if_pos hd, ih x]
      constructor
      · rintro ⟨hs, hi⟩
        refine ⟨hs, fun hm => ?_⟩
        rcases List.mem_cons.mp hm with rfl | hr
        · exact hd
        · exact hi hr
      · rintro ⟨hs, hi⟩
        exact ⟨hs, fun hr => hi (List.mem_cons_of_mem d hr)⟩
    · rw [if_neg hd, List.Nodup.mem_erase_iff hRnd, ih x]
      constructor
      · rintro ⟨hne, hs, hi⟩
        refine ⟨hs, fun hm => ?_⟩
        rcases List.mem_cons.mp hm with rfl | hr
        · exact absurd rfl hne
        · exact hi hr
      · rintro ⟨hs, hi⟩
        have hne : x ≠ d := by
          rintro rfl
          exact hd (hi (List.mem_cons_self x rest))
        exact ⟨hne, hs, fun hr => hi (List.mem_cons_of_mem d hr)⟩

/-- C1: for every watcher whose state satisfies the watcher invariant
(pending sets empty, `subscribed`, `depIds` and `deps` equal as sets, no
duplicates), after any invocation of `Watcher.get()` that touches the dep
ids `ts`, the watcher's subscription set equals exactly the set of deps
touched during that getter invocation — a dep read for the first time was
subscribed via `dep.addSub`, every dep of the previous `deps` absent from
the newly collected `newDepIds` was unsubscribed via `removeSub` — and the
pending sets were swapped into the current sets (`deps`/`depIds` now also
equal the touched set, duplicate-free) and cleared. -/
theorem watcher_get_subscription_exact (w : WDeps) (ts : List Nat)
    (hnd : w.newDeps = []) (hndi : w.newDepIds = [])
    (hsnd : w.subscribed.Nodup)
    (hsub1 : ∀ d ∈ w.subscribed, d ∈ w.depIds)
    (hsub2 : ∀ d ∈ w.depIds, d ∈ w.subscribed)
    (hdeps2 : ∀ d ∈ w.depIds, d ∈ w.deps) :
    (∀ d, d ∈ (getTrack w ts).subscribed ↔ d ∈ ts) ∧
    (∀ d, d ∈ (getTrack w ts).deps ↔ d ∈ ts) ∧
    (∀ d, d ∈ (getTrack w ts).depIds ↔ d ∈ ts) ∧
    (getTrack w ts).deps.Nodup ∧
    (getTrack w ts).newDeps = [] ∧ (getTrack w ts).newDepIds = [] := by
  obtain ⟨hfdeps, hfdepIds, hfnew, hfsub⟩ := foldl_addDep_spec ts w
  have hndeq : (ts.foldl addDep w).newDeps = (ts.foldl addDep w).newDepIds :=
    foldl_addDep_newDeps_eq ts w (by rw [hnd, hndi])
  have hnnodup : (ts.foldl addDep w).newDepIds.Nodup :=
    foldl_addDep_newDepIds_nodup ts w (by rw [hndi]; exact List.nodup_nil)
  have hsubnodup : (ts.foldl addDep w).subscribed.Nodup :=
    foldl_addDep_subscribed_nodup ts w hsnd
      (fun d hd => Or.inl (hsub1 d hd))
  have hnew : ∀ d, d ∈ (ts.foldl addDep w).newDepIds ↔ d ∈ ts := by
    intro d
    rw [hfnew d, hndi]
    simp
  have hsubmem : ∀ d, d ∈ (ts.foldl addDep w).subscribed ↔
      d ∈ w.subscribed ∨ d ∈ ts ∧ d ∉ w.depIds := by
    intro d
    rw [hfsub d, hndi]
    simp
  have hfinal : ∀ d, d ∈ (getTrack w ts).subscribed ↔ d ∈ ts := by
    intro d
    rw [getTrack, cleanupDeps]
    rw [removeStaleSubs_mem _ _ _ hsubnodup d, hsubmem d, hfdeps]
    constructor
    · rintro ⟨hm | ⟨hts, _⟩, hi⟩
      · exact (hnew d).mp (hi (hdeps2 d (hsub1 d hm)))
      · exact hts
    · intro hts
      by_cases hdi : d ∈ w.depIds
      · exact ⟨Or.inl (hsub2 d hdi), fun _ => (hnew d).mpr hts⟩
      · exact ⟨Or.inr ⟨hts, hdi⟩, fun _ => (hnew d).mpr hts⟩
  refine ⟨hfinal, ?_, ?_, ?_, rfl, rfl⟩
  · intro d
    show d ∈ (ts.foldl addDep w).newDeps ↔ d ∈ ts
    rw [hndeq]
    exact hnew d
  · exact hnew
  · show (ts.foldl addDep w).newDeps.Nodup
    rw [hndeq]
    exact hnnodup

/-- Witness for C1: a watcher currently subscribed to deps 1 and 2 whose
getter touches dep 2 twice and dep 3 once ends up subscribed to exactly
deps 2 and 3, with the pending sets cleared. -/
theorem watcher_get_subscription_exact_witness :
    (2 ∈ (getTrack ⟨[1, 2], [], [1, 2], [], [1, 2]⟩ [2, 3, 3]).subscribed ↔
      2 ∈ [2, 3, 3]) ∧
    (1 ∈ (getTrack ⟨[1, 2], [], [1, 2], [], [1, 2]⟩ [2, 3, 3]).subscribed ↔
      1 ∈ [2, 3, 3]) ∧
    (getTrack ⟨[1, 2], [], [1, 2], [], [1, 2]⟩ [2, 3, 3]).newDeps = [] := by
  have h := watcher_get_subscription_exact ⟨[1, 2], [], [1, 2], [], [1, 2]⟩ [2, 3, 3]
    rfl rfl (by decide) (by decide) (by decide) (by decide)
  exact ⟨h.1 2, h.1 1, h.2.2.2.2.1⟩

/-- `insertIdx` at a valid position is a take/cons/drop split. -/
theorem insertIdx_eq_take_cons_drop {α : Type _} (x : α) :
    ∀ (k : Nat) (l : List α), k ≤ l.length →
      l.insertIdx k x = l.take k ++ x :: l.drop k := by
  intro k
  induction k with
  | zero => intro l _; simp
  | succ k ih =>
    intro l hl
    cases l with
    | nil => simp at hl
    | cons a l2 =>
      rw [List.insertIdx_succ_cons, List.take_succ_cons, List.drop_succ_cons,
        ih l2 (Nat.le_of_succ_le_succ hl)]
      rfl

/-- Inserting below a drop point commutes with the drop. -/
theorem drop_insertIdx_comm {α : Type _} (x : α) :
    ∀ (n : Nat) (l : List α) (k : Nat), n ≤ k → k ≤ l.length →
      (l.insertIdx k x).drop n = (l.drop n).insertIdx (k - n) x := by
  intro n
  induction n with
  | zero => intro l k _ _; simp
  | succ n ih =>
    intro l k hnk hkl
    cases l with
    | nil => simp at hkl; omega
    | cons a l2 =>
      cases k with
      | zero => omega
      | succ k =>
        rw [List.insertIdx_succ_cons, List.drop_succ_cons, List.drop_succ_cons,
          ih l2 k (Nat.le_of_succ_le_succ hnk) (Nat.le_of_succ_le_succ hkl),
          Nat.succ_sub_succ]

/-- Inserting an element between a lower and an upper region of a sorted
list keeps it sorted. -/
theorem sorted_insertIdx (s : List Nat) (k x : Nat)
    (hs : List.Sorted (· ≤ ·) s) (hk : k ≤ s.length)
    (hle : ∀ y ∈ s.take k, y ≤ x) (hge : ∀ y ∈ s.drop k, x ≤ y) :
    List.Sorted (· ≤ ·) (s.insertIdx k x) := by
  rw [insertIdx_eq_take_cons_drop x k s hk]
  have hs2 : List.Pairwise (· ≤ ·) (s.take k ++ s.drop k) := by
    rw [List.take_append_drop]; exact hs
  rw [List.Sorted, List.pairwise_append]
  refine ⟨List.Pairwise.sublist (List.take_sublist k s) hs, ?_, ?_⟩
  · rw [List.pairwise_cons]
    exact ⟨hge, List.Pairwise.sublist (List.drop_sublist k s) hs⟩
  · intro a ha b hb
    rcases List.mem_cons.mp hb with rfl | hb2
    · exact hle a ha
    · exact (List.pairwise_append.mp hs2).2.2 a ha b hb2

/-- `getD` through a `drop`. -/
theorem getD_drop_eq (l : List Nat) (i j : Nat) (h : i + j < l.length) :
    (l.drop i).getD j 0 = l.getD (i + j) 0 := by
  have hj : j < (l.drop i).length := by rw [List.length_drop]; omega
  rw [List.getD_eq_getElem _ _ hj, List.getD_eq_getElem _ _ h]
  exact List.getElem_drop _

/-- The scan never stops below the cursor. -/
theorem insertScan_ge (q : List Nat) (index wid : Nat) :
    ∀ i, index ≤ i → index ≤ insertScan q index wid i := by
  intro i
  induction i with
  | zero => intro h; exact h
  | succ i ih =>
    intro h
    rw [insertScan]
    by_cases hc : index < i + 1 ∧ wid < q.getD (i + 1) 0
    · rw [if_pos hc]; exact ih (Nat.lt_succ_iff.mp hc.1)
    · rw [if_neg hc]; exact h

/-- The scan never moves up. -/
theorem insertScan_le (q : List Nat) (index wid : Nat) :
    ∀ i, insertScan q index wid i ≤ i := by
  intro i
  induction i with
  | zero => rw [insertScan]
  | succ i ih =>
    rw [insertScan]
    by_cases hc : index < i + 1 ∧ wid < q.getD (i + 1) 0
    · rw [if_pos hc]; exact ih.trans (Nat.le_succ i)
    · rw [if_neg hc]

/-- Every index the scan moved past holds an id larger than the inserted
one. -/
theorem insertScan_gt (q : List Nat) (index wid : Nat) :
    ∀ i j, insertScan q index wid i < j → j ≤ i → wid < q.getD j 0 := by
  intro i
  induction i with
  | zero =>
    intro j h1 h2
    rw [insertScan] at h1
    omega
  | succ i ih =>
    intro j h1 h2
    rw [insertScan] at h1
    by_cases hc : index < i + 1 ∧ wid < q.getD (i + 1) 0
    · rw [if_pos hc] at h1
      by_cases hj : j = i + 1
      · rw [hj]; exact hc.2
      · exact ih j h1 (by omega)
    · rw [if_neg hc] at h1
      omega

/-- Where the scan stops: at the cursor, or at an id at most the inserted
one. -/
theorem insertScan_stop (q : List Nat) (index wid : Nat) :
    ∀ i, index ≤ i →
      insertScan q index wid i = index ∨
        q.getD (insertScan q index wid i) 0 ≤ wid := by
  intro i
  induction i with
  | zero =>
    intro h
    rw [insertScan]
    omega
  | succ i ih =>
    intro h
    rw [insertScan]
    by_cases hc : index < i + 1 ∧ wid < q.getD (i + 1) 0
    · rw [if_pos hc]; exact ih (Nat.lt_succ_iff.mp hc.1)
    · rw [if_neg hc]
      by_cases hidx : index < i + 1
      · right
        push_neg at hc
        exact hc hidx
      · left
        omega

/-- On a nonempty queue the splice position is the scan result plus one. -/
theorem queueInsertPos_eq (q : List Nat) (i w : Nat) (h : q ≠ []) :
    queueInsertPos q i w = insertScan q i w (q.length - 1) + 1 := by
  cases q with
  | nil => exact absurd rfl h
  | cons a t => rfl

/-- The queue after `queueWatcher` on an id not yet present: appended when
idle, spliced at the scan position while flushing. -/
theorem queueWatcher_queue (s : SchedState) (wid : Nat) (h : wid ∉ s.has) :
    (queueWatcher s wid).queue =
      if s.flushing then
        s.queue.insertIdx (queueInsertPos s.queue s.index wid) wid
      else s.queue ++ [wid] := by
  rw [queueWatcher, if_neg h]
  cases hf : s.flushing <;> by_cases hw : s.waiting <;> simp [hf, hw]

/-- `queueWatcher` marks the id present when it was not. -/
theorem queueWatcher_has (s : SchedState) (wid : Nat) (h : wid ∉ s.has) :
    (queueWatcher s wid).has = wid :: s.has := by
  rw [queueWatcher, if_neg h]
  cases hf : s.flushing <;> by_cases hw : s.waiting <;> simp [hf, hw]

/-- `queueWatcher` never touches the ghost logs, the cursor, the flags or
the dev counters (only `waiting` may be switched on). -/
theorem queueWatcher_frame (s : SchedState) (wid : Nat) :
    (queueWatcher s wid).warnLog = s.warnLog ∧
    (queueWatcher s wid).runLog = s.runLog ∧
    (queueWatcher s wid).index = s.index ∧
    (queueWatcher s wid).flushing = s.flushing ∧
    (queueWatcher s wid).circular = s.circular := by
  by_cases h : wid ∈ s.has
  · simp [queueWatcher, h]
  · rw [queueWatcher, if_neg h]
    cases hf : s.flushing <;> by_cases hw : s.waiting <;> simp [hf, hw]

/-- C3: `queueWatcher(w)` is a no-op when `w.id` is already in the presence
map, so ids are deduplicated (a duplicate-free queue covered by the
presence map stays duplicate-free and covered); while not flushing the
watcher is appended; while flushing it is inserted after the current
cursor, at a position that keeps the queue past the cursor sorted
non-decreasing by watcher id. -/
theorem queueWatcher_dedup_insert :
    (∀ (s : SchedState) (wid : Nat), wid ∈ s.has → queueWatcher s wid = s) ∧
    (∀ (s : SchedState) (wid : Nat), wid ∉ s.has → s.flushing = false →
      (queueWatcher s wid).queue = s.queue ++ [wid]) ∧
    (∀ (s : SchedState) (wid : Nat), wid ∉ s.has → s.flushing = true →
      s.index < s.queue.length →
      s.index < queueInsertPos s.queue s.index wid ∧
      queueInsertPos s.queue s.index wid ≤ s.queue.length ∧
      (queueWatcher s wid).queue
        = s.queue.insertIdx (queueInsertPos s.queue s.index wid) wid ∧
      (List.Sorted (· ≤ ·) (s.queue.drop (s.index + 1)) →
        List.Sorted (· ≤ ·) ((queueWatcher s wid).queue.drop (s.index + 1)))) ∧
    (∀ (s : SchedState) (wid : Nat),
      (∀ i ∈ s.queue, i ∈ s.has) → s.queue.Nodup →
      (queueWatcher s wid).queue.Nodup ∧
      (∀ i ∈ (queueWatcher s wid).queue, i ∈ (queueWatcher s wid).has)) := by
  refine ⟨?_, ?_, ?_, ?_⟩
  · intro s wid h
    rw [queueWatcher, if_pos h]
  · intro s wid h hf
    rw [queueWatcher_queue s wid h, if_neg (by rw [hf]; exact Bool.false_ne_true)]
  · intro s wid h hf hidx
    have hq : s.queue ≠ [] := by
      intro he
      rw [he] at hidx
      simp at hidx
    have hpos := queueInsertPos_eq s.queue s.index wid hq
    have hstart : s.index ≤ s.queue.length - 1 := by omega
    have hge := insertScan_ge s.queue s.index wid (s.queue.length - 1) hstart
    have hle := insertScan_le s.queue s.index wid (s.queue.length - 1)
    have hplen : queueInsertPos s.queue s.index wid ≤ s.queue.length := by
      rw [hpos]; omega
    have hpgt : s.index < queueInsertPos s.queue s.index wid := by
      rw [hpos]; omega
    have hqueue := queueWatcher_queue s wid h
    rw [if_pos hf] at hqueue
    refine ⟨hpgt, hplen, hqueue, ?_⟩
    intro hsorted
    rw [hqueue, drop_insertIdx_comm wid (s.index + 1) s.queue
      (queueInsertPos s.queue s.index wid) hpgt hplen]
    set r := insertScan s.queue s.index wid (s.queue.length - 1) with hr
    have hkval : queueInsertPos s.queue s.index wid - (s.index + 1) = r - s.index := by
      rw [hpos]; omega
    rw [hkval]
    have hdlen : (s.queue.drop (s.index + 1)).length = s.queue.length - (s.index + 1) :=
      List.length_drop _ _
    apply sorted_insertIdx _ _ _ hsorted (by omega)
    · -- everything before the insert point in the post-cursor segment is ≤ wid
      intro y hy
      rcases List.mem_take_iff_getElem.mp hy with ⟨j, hj, hyj⟩
      have hj2 : j < r - s.index ∧ j < (s.queue.drop (s.index + 1)).length :=
        lt_min_iff.mp hj
      have hjq : s.index + 1 + j < s.queue.length := by omega
      have hyd : s.queue.getD (s.index + 1 + j) 0 = y := by
        rw [← getD_drop_eq s.queue (s.index + 1) j hjq,
          List.getD_eq_getElem _ _ hj2.2]
        exact hyj
      rcases insertScan_stop s.queue s.index wid (s.queue.length - 1) hstart with hstop | hstop
      · rw [← hr] at hstop; omega
      · rw [← hr] at hstop
        by_cases hje : s.index + 1 + j = r
        · rw [hje] at hyd
          rw [← hyd]
          exact hstop
        · -- strictly before the stop position: use sortedness of the segment
          have hjr : s.index + 1 + j < r := by omega
          have h2 : r - (s.index + 1) < (s.queue.drop (s.index + 1)).length := by
            rw [List.length_drop]; omega
          have hpw : (s.queue.drop (s.index + 1)).getD j 0
              ≤ (s.queue.drop (s.index + 1)).getD (r - (s.index + 1)) 0 := by
            rw [List.getD_eq_getElem _ _ hj2.2, List.getD_eq_getElem _ _ h2]
            exact List.pairwise_iff_getElem.mp hsorted j (r - (s.index + 1))
              hj2.2 h2 (by omega)
          have e1 : (s.queue.drop (s.index + 1)).getD j 0 = y := by
            rw [getD_drop_eq s.queue (s.index + 1) j hjq]
            exact hyd
          have e2 : (s.queue.drop (s.index + 1)).getD (r - (s.index + 1)) 0
              = s.queue.getD r 0 := by
            rw [getD_drop_eq s.queue (s.index + 1) (r - (s.index + 1)) (by omega)]
            rw [show s.index + 1 + (r - (s.index + 1)) = r from by omega]
          rw [e1, e2] at hpw
          exact hpw.trans hstop
    · -- everything past the insert point is > wid
      intro y hy
      rw [List.drop_drop] at hy
      have hrsum : s.index + 1 + (r - s.index) = r + 1 := by omega
      rw [hrsum] at hy
      rcases List.mem_iff_getElem.mp hy with ⟨m, hm, hym⟩
      have hmq : r + 1 + m < s.queue.length := by
        have := List.length_drop (r + 1) s.queue
        omega
      have hyd : s.queue.getD (r + 1 + m) 0 = y := by
        rw [← getD_drop_eq s.queue (r + 1) m hmq, List.getD_eq_getElem _ _ hm]
        exact hym
      have hgt := insertScan_gt s.queue s.index wid (s.queue.length - 1)
        (r + 1 + m) (by omega) (by omega)
      rw [hyd] at hgt
      exact le_of_lt hgt
  · intro s wid hcov hnd
    by_cases h : wid ∈ s.has
    · rw [queueWatcher, if_pos h]
      exact ⟨hnd, hcov⟩
    · have hwq : wid ∉ s.queue := fun hm => h (hcov wid hm)
      have hhas := queueWatcher_has s wid h
      have hqueue := queueWatcher_queue s wid h
      cases hf : s.flushing
      · rw [if_neg (by rw [hf]; exact Bool.false_ne_true)] at hqueue
        have hperm : (queueWatcher s wid).queue.Perm (wid :: s.queue) := by
          rw [hqueue]
          exact List.perm_append_singleton wid s.queue
        refine ⟨hperm.nodup_iff.mpr (List.nodup_cons.mpr ⟨hwq, hnd⟩), ?_⟩
        intro i hi
        rw [hhas]
        rcases List.mem_cons.mp (hperm.mem_iff.mp hi) with rfl | hiq
        · exact List.mem_cons_self _ _
        · exact List.mem_cons_of_mem _ (hcov i hiq)
      · rw [if_pos hf] at hqueue
        by_cases hp : queueInsertPos s.queue s.index wid ≤ s.queue.length
        · have hperm : (queueWatcher s wid).queue.Perm (wid :: s.queue) := by
            rw [hqueue, insertIdx_eq_take_cons_drop wid _ _ hp]
            have h1 : (s.queue.take (queueInsertPos s.queue s.index wid) ++
                wid :: s.queue.drop (queueInsertPos s.queue s.index wid)).Perm
                (wid :: (s.queue.take (queueInsertPos s.queue s.index wid) ++
                  s.queue.drop (queueInsertPos s.queue s.index wid))) := List.perm_middle
            rw [List.take_append_drop] at h1
            exact h1
          refine ⟨hperm.nodup_iff.mpr (List.nodup_cons.mpr ⟨hwq, hnd⟩), ?_⟩
          intro i hi
          rw [hhas]
          rcases List.mem_cons.mp (hperm.mem_iff.mp hi) with rfl | hiq
          · exact List.mem_cons_self _ _
          · exact List.mem_cons_of_mem _ (hcov i hiq)
        · rw [List.insertIdx_of_length_lt _ _ _ (by omega)] at hqueue
          rw [hqueue]
          refine ⟨hnd, ?_⟩
          intro i hi
          rw [hhas]
          exact List.mem_cons_of_mem _ (hcov i hi)

/-- Witness for C3: dedup no-op, idle append, a mid-flush insertion of id 3
into `[1, 5, 9]` with cursor 0 landing between 1 and 5 (keeping the tail
sorted), and preservation of a duplicate-free covered queue. -/
theorem queueWatcher_dedup_insert_witness :
    queueWatcher ⟨[5], [5], [], false, false, 0, [], []⟩ 5
      = ⟨[5], [5], [], false, false, 0, [], []⟩ ∧
    (queueWatcher idleSched 1).queue = idleSched.queue ++ [1] ∧
    (0 : Nat) < queueInsertPos [1, 5, 9] 0 3 ∧
    (queueWatcher ⟨[1, 5, 9], [5, 9], [], true, true, 0, [], []⟩ 3).queue
      = List.insertIdx (queueInsertPos [1, 5, 9] 0 3) 3 [1, 5, 9] ∧
    List.Sorted (· ≤ ·)
      ((queueWatcher ⟨[1, 5, 9], [5, 9], [], true, true, 0, [], []⟩ 3).queue.drop (0 + 1)) ∧
    (queueWatcher ⟨[2, 4], [2, 4], [], false, false, 0, [], []⟩ 3).queue.Nodup ∧
    3 ∈ (queueWatcher ⟨[2, 4], [2, 4], [], false, false, 0, [], []⟩ 3).has := by
  have h3 := queueWatcher_dedup_insert.2.2.1 ⟨[1, 5, 9], [5, 9], [], true, true, 0, [], []⟩ 3
    (by decide) rfl (by decide)
  have h4 := queueWatcher_dedup_insert.2.2.2 ⟨[2, 4], [2, 4], [], false, false, 0, [], []⟩ 3
    (by decide) (by decide)
  exact ⟨queueWatcher_dedup_insert.1 _ 5 (by decide),
    queueWatcher_dedup_insert.2.1 idleSched 1 (by decide) rfl,
    h3.1, h3.2.2.1, h3.2.2.2 (by decide), h4.1,
    h4.2 3 (by decide)⟩

/-- A flush whose watchers enqueue nothing walks the queue once: each
iteration logs `queue[index]` and moves the cursor, touching neither the
queue nor the warning log (the circular guard never fires because the
presence map is duplicate-free and the bit was just cleared). -/
theorem flushLoop_no_effects :
    ∀ (fuel : Nat) (s : SchedState), s.has.Nodup →
      s.queue.length - s.index ≤ fuel →
      (flushLoop (fun _ => []) fuel s).runLog = s.runLog ++ s.queue.drop s.index ∧
      (flushLoop (fun _ => []) fuel s).queue = s.queue ∧
      (flushLoop (fun _ => []) fuel s).warnLog = s.warnLog := by
  intro fuel
  induction fuel with
  | zero =>
    intro s hnd hf
    have hdrop : s.queue.drop s.index = [] := List.drop_eq_nil_of_le (by omega)
    rw [flushLoop, hdrop]
    simp
  | succ fuel ih =>
    intro s hnd hf
    rw [flushLoop]
    by_cases hidx : s.index < s.queue.length
    · rw [if_pos hidx]
      have hnm : s.queue.getD s.index 0 ∉ s.has.erase (s.queue.getD s.index 0) :=
        hnd.not_mem_erase
      have hstep : flushStep (fun _ => []) s =
          ({ s with has := s.has.erase (s.queue.getD s.index 0)
                    runLog := s.runLog ++ [s.queue.getD s.index 0] }, false) := by
        simp only [flushStep, List.foldl_nil]
        rw [if_neg hnm]
      rw [hstep]
      obtain ⟨h1, h2, h3⟩ := ih
        { s with has := s.has.erase (s.queue.getD s.index 0)
                 runLog := s.runLog ++ [s.queue.getD s.index 0]
                 index := s.index + 1 }
        (hnd.erase _) (by simp; omega)
      refine ⟨?_, h2, h3⟩
      rw [h1]
      simp only []
      rw [List.append_assoc]
      congr 1
      rw [List.drop_eq_getElem_cons hidx, List.getD_eq_getElem _ _ hidx]
      rfl
    · rw [if_neg hidx]
      have hdrop : s.queue.drop s.index = [] := List.drop_eq_nil_of_le (by omega)
      rw [hdrop]
      simp

/-- Splitting a list at the first occurrence of a member. -/
theorem exists_first_split {b : Nat} : ∀ {l : List Nat}, b ∈ l →
    ∃ u1 u2, l = u1 ++ b :: u2 ∧ b ∉ u1 := by
  intro l
  induction l with
  | nil => intro h; exact absurd h (List.not_mem_nil b)
  | cons x xs ih =>
    intro h
    by_cases hxb : x = b
    · exact ⟨[], xs, by rw [hxb]; rfl, List.not_mem_nil b⟩
    · rcases List.mem_cons.mp h with he | hm
      · exact absurd he.symm hxb
      · obtain ⟨u1, u2, hsplit, hbu⟩ := ih hm
        refine ⟨x :: u1, u2, by rw [hsplit]; rfl, ?_⟩
        intro hc
        rcases List.mem_cons.mp hc with he | hm2
        · exact hxb he.symm
        · exact hbu hm2

/-- `insertIdx` within the left part of an append stays there. -/
theorem insertIdx_append_le {α : Type _} (c : α) :
    ∀ (u : List α) (k : Nat) (r : List α), k ≤ u.length →
      List.insertIdx k c (u ++ r) = List.insertIdx k c u ++ r := by
  intro u
  induction u with
  | nil =>
    intro k r hk
    have hz : k = 0 := Nat.le_zero.mp hk
    subst hz
    simp
  | cons a u ih =>
    intro k r hk
    cases k with
    | zero => simp
    | succ k =>
      rw [List.cons_append, List.insertIdx_succ_cons, List.insertIdx_succ_cons,
        ih k r (Nat.le_of_succ_le_succ hk), List.cons_append]

/-- `insertIdx` past the left part of an append lands in the right part. -/
theorem insertIdx_append_gt {α : Type _} (c : α) :
    ∀ (u : List α) (k : Nat) (r : List α), u.length < k →
      List.insertIdx k c (u ++ r) = u ++ List.insertIdx (k - u.length) c r := by
  intro u
  induction u with
  | nil => intro k r _; simp
  | cons a u ih =>
    intro k r hk
    cases k with
    | zero => simp at hk
    | succ k =>
      rw [List.cons_append, List.insertIdx_succ_cons,
        ih k r (by simp only [List.length_cons] at hk; omega),
        List.length_cons, Nat.succ_sub_succ, List.cons_append]

/-- Inserting an id other than `b` into a segment whose first `b` sits
after a `b`-free part leaves the first `b` in place: the `b`-free part can
only gain the inserted id. -/
theorem insertIdx_split (c b : Nat) (k : Nat) (u1 u2 : List Nat)
    (hb1 : b ∉ u1) (hcb : c ≠ b) :
    ∃ v1 v2, List.insertIdx k c (u1 ++ b :: u2) = v1 ++ b :: v2 ∧ b ∉ v1 ∧
      ∀ x, x ∈ u1 → x ∈ v1 := by
  by_cases hk : k ≤ u1.length
  · refine ⟨List.insertIdx k c u1, u2, insertIdx_append_le c u1 k (b :: u2) hk, ?_, ?_⟩
    · rw [insertIdx_eq_take_cons_drop c k u1 hk]
      intro hmem
      rcases List.mem_append.mp hmem with h | h
      · exact hb1 (List.mem_of_mem_take h)
      · rcases List.mem_cons.mp h with h | h
        · exact hcb h.symm
        · exact hb1 (List.mem_of_mem_drop h)
    · intro x hx
      rw [insertIdx_eq_take_cons_drop c k u1 hk]
      have hx2 : x ∈ u1.take k ++ u1.drop k := by
        rw [List.take_append_drop]
        exact hx
      rcases List.mem_append.mp hx2 with h | h
      · exact List.mem_append_left _ h
      · exact List.mem_append_right _ (List.mem_cons_of_mem _ h)
  · push_neg at hk
    obtain ⟨m, hm⟩ : ∃ m, k - u1.length = m + 1 := ⟨k - u1.length - 1, by omega⟩
    refine ⟨u1, List.insertIdx m c u2, ?_, hb1, fun x hx => hx⟩
    rw [insertIdx_append_gt c u1 k (b :: u2) hk, hm, List.insertIdx_succ_cons]

/-- Re-entrant `queueWatcher` calls never touch the run log, the cursor or
the flushing flag. -/
theorem foldl_queueWatcher_fields (l : List Nat) :
    ∀ s : SchedState, (l.foldl queueWatcher s).runLog = s.runLog ∧
      (l.foldl queueWatcher s).index = s.index ∧
      (l.foldl queueWatcher s).flushing = s.flushing := by
  induction l with
  | nil => intro s; exact ⟨rfl, rfl, rfl⟩
  | cons c cs ih =>
    intro s
    rw [List.foldl_cons]
    obtain ⟨h1, h2, h3⟩ := ih (queueWatcher s c)
    have hfr := queueWatcher_frame s c
    exact ⟨h1.trans hfr.2.1, h2.trans hfr.2.2.1, h3.trans hfr.2.2.2.1⟩

/-- A pending watcher `b` with its presence bit set survives any sequence
of re-entrant `queueWatcher` calls while flushing: the dedup check blocks a
second copy of `b`, and every splice lands after the cursor, inserting only
ids other than `b` — so past the cursor the first `b` still follows a
`b`-free segment that only grew. -/
theorem foldl_queueWatcher_pending (b : Nat) :
    ∀ (l : List Nat) (s : SchedState) (u1 u2 : List Nat),
      s.flushing = true → b ∈ s.has →
      s.queue.drop (s.index + 1) = u1 ++ b :: u2 → b ∉ u1 →
      ∃ v1 v2,
        (l.foldl queueWatcher s).queue.drop (s.index + 1) = v1 ++ b :: v2 ∧
        b ∉ v1 ∧ (∀ x, x ∈ u1 → x ∈ v1) ∧ b ∈ (l.foldl queueWatcher s).has := by
  intro l
  induction l with
  | nil =>
    intro s u1 u2 _ hb hdec hb1
    exact ⟨u1, u2, hdec, hb1, fun x hx => hx, hb⟩
  | cons c cs ih =>
    intro s u1 u2 hf hb hdec hb1
    rw [List.foldl_cons]
    by_cases hc : c ∈ s.has
    · have hnoop : queueWatcher s c = s := by rw [queueWatcher, if_pos hc]
      rw [hnoop]
      exact ih s u1 u2 hf hb hdec hb1
    · have hcb : c ≠ b := fun he => hc (he ▸ hb)
      have hfr := queueWatcher_frame s c
      have hne : s.queue.drop (s.index + 1) ≠ [] := by
        rw [hdec]
        simp
      have hlen : s.index + 1 < s.queue.length := by
        by_contra hcon
        exact hne (List.drop_eq_nil_of_le (by omega))
      have hqne : s.queue ≠ [] := by
        intro he
        rw [he] at hlen
        simp at hlen
      have hpos := queueInsertPos_eq s.queue s.index c hqne
      have hge := insertScan_ge s.queue s.index c (s.queue.length - 1) (by omega)
      have hle := insertScan_le s.queue s.index c (s.queue.length - 1)
      have hp1 : s.index + 1 ≤ queueInsertPos s.queue s.index c := by omega
      have hp2 : queueInsertPos s.queue s.index c ≤ s.queue.length := by omega
      have hq := queueWatcher_queue s c hc
      rw [if_pos hf] at hq
      have hdq : (queueWatcher s c).queue.drop (s.index + 1)
          = (s.queue.drop (s.index + 1)).insertIdx
              (queueInsertPos s.queue s.index c - (s.index + 1)) c := by
        rw [hq, drop_insertIdx_comm c (s.index + 1) s.queue
          (queueInsertPos s.queue s.index c) hp1 hp2]
      rw [hdec] at hdq
      obtain ⟨w1, w2, hw, hbw1, hsub⟩ := insertIdx_split c b
        (queueInsertPos s.queue s.index c - (s.index + 1)) u1 u2 hb1 hcb
      rw [hw] at hdq
      have hbh : b ∈ (queueWatcher s c).has := by
        rw [queueWatcher_has s c hc]
        exact List.mem_cons_of_mem _ hb
      have hdq2 : (queueWatcher s c).queue.drop ((queueWatcher s c).index + 1)
          = w1 ++ b :: w2 := by
        rw [hfr.2.2.1]
        exact hdq
      obtain ⟨v1, v2, h1, h2, h3, h4⟩ := ih (queueWatcher s c) w1 w2
        (hfr.2.2.2.1.trans hf) hbh hdq2 hbw1
      refine ⟨v1, v2, ?_, h2, fun x hx => h3 x (hsub x hx), h4⟩
      rw [← hfr.2.2.1]
      exact h1

/-- The queue, presence map, run log, cursor and flushing flag after one
loop iteration, regardless of whether the circular guard fired. -/
theorem flushStep_fields (effects : Nat → List Nat) (s : SchedState) :
    (flushStep effects s).1.queue
        = ((effects (s.queue.getD s.index 0)).foldl queueWatcher
            { s with has := s.has.erase (s.queue.getD s.index 0)
                     runLog := s.runLog ++ [s.queue.getD s.index 0] }).queue ∧
    (flushStep effects s).1.has
        = ((effects (s.queue.getD s.index 0)).foldl queueWatcher
            { s with has := s.has.erase (s.queue.getD s.index 0)
                     runLog := s.runLog ++ [s.queue.getD s.index 0] }).has ∧
    (flushStep effects s).1.runLog = s.runLog ++ [s.queue.getD s.index 0] ∧
    (flushStep effects s).1.index = s.index ∧
    (flushStep effects s).1.flushing = s.flushing := by
  rw [flushStep]
  simp only []
  set wid := s.queue.getD s.index 0 with hwid
  set s2 := (effects wid).foldl queueWatcher
    { s with has := s.has.erase wid, runLog := s.runLog ++ [wid] } with hs2
  obtain ⟨hrl, hix, hfl⟩ := foldl_queueWatcher_fields (effects wid)
    { s with has := s.has.erase wid, runLog := s.runLog ++ [wid] }
  rw [← hs2] at hrl hix hfl
  by_cases hmem : wid ∈ s2.has
  · rw [if_pos hmem]
    by_cases hcnt : MAX_UPDATE_COUNT < circCount s2.circular wid + 1
    · rw [if_pos hcnt]
      exact ⟨rfl, rfl, hrl, hix, hfl⟩
    · rw [if_neg hcnt]
      exact ⟨rfl, rfl, hrl, hix, hfl⟩
  · rw [if_neg hmem]
    exact ⟨rfl, rfl, hrl, hix, hfl⟩

/-- Once watcher `b` is in the run log under the pair invariant, the split
at its first run is available. -/
theorem pairInv_runLog {a b : Nat} {s : SchedState} (h : pairInv a b s)
    (hb : b ∈ s.runLog) :
    ∃ l1 l2, s.runLog = l1 ++ b :: l2 ∧ b ∉ l1 ∧ a ∈ l1 := by
  rcases h with h | h
  · exact h
  · exact absurd hb h.1

/-- One loop iteration preserves the pair invariant, whatever ids the
running watcher's notifications enqueue: if the cursor is on `b` itself,
`a` has run by the invariant and the step logs `b` right after; otherwise
`b` stays pending behind a `b`-free segment that keeps every pending
occurrence of `a`. -/
theorem flushStep_pairInv (effects : Nat → List Nat) (a b : Nat) (s : SchedState)
    (hf : s.flushing = true) (hidx : s.index < s.queue.length)
    (hinv : pairInv a b s) :
    pairInv a b
      { (flushStep effects s).1 with index := (flushStep effects s).1.index + 1 } := by
  obtain ⟨hq, hh, hr, hix, hfl⟩ := flushStep_fields effects s
  rcases hinv with ⟨l1, l2, hlog, hb1, ha1⟩ | ⟨hblog, hbhas, u1, u2, hdec, hbu1, hau⟩
  · left
    refine ⟨l1, l2 ++ [s.queue.getD s.index 0], ?_, hb1, ha1⟩
    show (flushStep effects s).1.runLog = l1 ++ b :: (l2 ++ [s.queue.getD s.index 0])
    rw [hr, hlog, List.append_assoc, List.cons_append]
  · have hdropc : s.queue.drop s.index
        = s.queue.getD s.index 0 :: s.queue.drop (s.index + 1) := by
      rw [List.drop_eq_getElem_cons hidx, List.getD_eq_getElem _ _ hidx]
    rw [hdropc] at hdec
    cases u1 with
    | nil =>
      rw [List.nil_append] at hdec
      have hinj := List.cons.inj hdec
      have hal : a ∈ s.runLog := by
        rcases hau with h | h
        · exact h
        · exact absurd h (List.not_mem_nil a)
      left
      refine ⟨s.runLog, [], ?_, hblog, hal⟩
      show (flushStep effects s).1.runLog = s.runLog ++ b :: []
      rw [hr, hinj.1]
    | cons w u1x =>
      rw [List.cons_append] at hdec
      have hinj := List.cons.inj hdec
      have hww : s.queue.getD s.index 0 = w := hinj.1
      have hdec2 : s.queue.drop (s.index + 1) = u1x ++ b :: u2 := hinj.2
      have hbw : b ≠ w := fun he => hbu1 (by rw [he]; exact List.mem_cons_self w u1x)
      have hbu1x : b ∉ u1x := fun hm => hbu1 (List.mem_cons_of_mem _ hm)
      have hbmid : b ∈ s.has.erase (s.queue.getD s.index 0) := by
        rw [hww]
        exact (List.mem_erase_of_ne hbw).mpr hbhas
      obtain ⟨v1, v2, h1, h2, h3, h4⟩ := foldl_queueWatcher_pending b
        (effects (s.queue.getD s.index 0))
        { s with has := s.has.erase (s.queue.getD s.index 0)
                 runLog := s.runLog ++ [s.queue.getD s.index 0] }
        u1x u2 hf hbmid hdec2 hbu1x
      right
      refine ⟨?_, ?_, v1, v2, ?_, h2, ?_⟩
      · show b ∉ (flushStep effects s).1.runLog
        rw [hr]
        intro hmem
        rcases List.mem_append.mp hmem with h | h
        · exact hblog h
        · rw [hww] at h
          exact hbw (List.mem_singleton.mp h)
      · show b ∈ (flushStep effects s).1.has
        rw [hh]
        exact h4
      · show (flushStep effects s).1.queue.drop ((flushStep effects s).1.index + 1)
            = v1 ++ b :: v2
        rw [hq, hix]
        exact h1
      · rcases hau with h | h
        · left
          show a ∈ (flushStep effects s).1.runLog
          rw [hr]
          exact List.mem_append_left _ h
        · rcases List.mem_cons.mp h with he | hm
          · left
            show a ∈ (flushStep effects s).1.runLog
            rw [hr, hww, he]
            exact List.mem_append_right _ (List.mem_cons_self w [])
          · right
            exact h3 a hm

/-- Through the whole cursor loop — with arbitrary re-entrant enqueues and
whether or not the circular guard aborts it — a watcher `b` protected by
the pair invariant only ever runs after `a` has. -/
theorem flushLoop_pairInv (effects : Nat → List Nat) (a b : Nat) :
    ∀ (fuel : Nat) (s : SchedState), s.flushing = true → pairInv a b s →
      b ∈ (flushLoop effects fuel s).runLog →
      ∃ l1 l2, (flushLoop effects fuel s).runLog = l1 ++ b :: l2 ∧ b ∉ l1 ∧ a ∈ l1 := by
  intro fuel
  induction fuel with
  | zero =>
    intro s _ hinv hb
    rw [flushLoop] at hb ⊢
    exact pairInv_runLog hinv hb
  | succ fuel ih =>
    intro s hf hinv hb
    rw [flushLoop] at hb ⊢
    by_cases hidx : s.index < s.queue.length
    · rw [if_pos hidx] at hb ⊢
      rcases hfs : flushStep effects s with ⟨s1, brk⟩
      have hstep := flushStep_pairInv effects a b s hf hidx hinv
      have hflu : (flushStep effects s).1.flushing = s.flushing :=
        (flushStep_fields effects s).2.2.2.2
      rw [hfs] at hb hstep hflu
      cases brk with
      | true => exact @pairInv_runLog a b { s1 with index := s1.index + 1 } hstep hb
      | false => exact ih { s1 with index := s1.index + 1 } (hflu.trans hf) hstep hb
    · rw [if_neg hidx] at hb ⊢
      exact pairInv_runLog hinv hb

/-- C2 (amended): `flushSchedulerQueue` sorts the queue ascending by
watcher id before iterating, and every mid-flush enqueue is deduplicated
or spliced in after the cursor — so in every flush, whatever the running
watchers enqueue, the watchers queued when the flush starts run in
ascending id order relative to one another: whenever such a watcher `b`
runs, every initially queued watcher `a < b` has already run before `b`'s
first run (a parent component's render watcher before any descendant's,
a component's user watchers before its render watcher).  When no watcher
is enqueued during the flush, the whole run log is exactly the sorted
initial queue. -/
theorem flush_order_amended :
    (∀ (effects : Nat → List Nat) (fuel : Nat) (s : SchedState) (a b : Nat),
      s.runLog = [] → (∀ i ∈ s.queue, i ∈ s.has) →
      a ∈ s.queue → b ∈ s.queue → a < b →
      b ∈ (flushSchedulerQueue effects fuel s).runLog →
      ∃ l1 l2, (flushSchedulerQueue effects fuel s).runLog = l1 ++ b :: l2 ∧
        b ∉ l1 ∧ a ∈ l1) ∧
    (∀ (s : SchedState) (fuel : Nat), s.has.Nodup → s.queue.length ≤ fuel →
      (flushSchedulerQueue (fun _ => []) fuel s).runLog
        = s.runLog ++ s.queue.insertionSort (· ≤ ·) ∧
      List.Sorted (· ≤ ·) (s.queue.insertionSort (· ≤ ·))) := by
  constructor
  · intro effects fuel s a b hlog hcov ha hb hab hbr
    have hbs : b ∈ s.queue.insertionSort (· ≤ ·) :=
      (List.perm_insertionSort (· ≤ ·) s.queue).mem_iff.mpr hb
    obtain ⟨u1, u2, hsplit, hbu1⟩ := exists_first_split hbs
    have hsorted : List.Pairwise (· ≤ ·) (s.queue.insertionSort (· ≤ ·)) :=
      List.sorted_insertionSort (· ≤ ·) s.queue
    have hau1 : a ∈ u1 := by
      have has2 : a ∈ s.queue.insertionSort (· ≤ ·) :=
        (List.perm_insertionSort (· ≤ ·) s.queue).mem_iff.mpr ha
      rw [hsplit] at has2 hsorted
      rcases List.mem_append.mp has2 with h | h
      · exact h
      · rcases List.mem_cons.mp h with he | hm
        · exact absurd he (by omega)
        · have hba := List.rel_of_pairwise_cons (List.pairwise_append.mp hsorted).2.1 hm
          exact absurd hab (by omega)
    have hinv : pairInv a b
        { s with flushing := true, queue := s.queue.insertionSort (· ≤ ·), index := 0 } := by
      right
      refine ⟨?_, hcov b hb, u1, u2, ?_, hbu1, Or.inr hau1⟩
      · show b ∉ s.runLog
        rw [hlog]
        exact List.not_mem_nil b
      · show (s.queue.insertionSort (· ≤ ·)).drop 0 = u1 ++ b :: u2
        rw [List.drop_zero]
        exact hsplit
    exact flushLoop_pairInv effects a b fuel
      { s with flushing := true, queue := s.queue.insertionSort (· ≤ ·), index := 0 }
      rfl hinv hbr
  · intro s fuel hnd hfu
    refine ⟨?_, List.sorted_insertionSort (· ≤ ·) s.queue⟩
    rw [flushSchedulerQueue]
    obtain ⟨h1, _, _⟩ := flushLoop_no_effects fuel
      { s with flushing := true, queue := s.queue.insertionSort (· ≤ ·), index := 0 }
      hnd (by simpa [List.length_insertionSort] using hfu)
    rw [resetSchedulerState]
    simp only []
    rw [h1]
    simp

/-- Witness for C2 (amended): in the exact scenario of the counterexample
(initial queue `[1, 5]`, watcher 5 enqueueing watcher 3 mid-flush, run log
`[1, 5, 3]`), the initially queued pair 1 < 5 still runs in order — the
theorem yields the split of the log at 5's first run with 1 before it;
and a flush of `[2, 1]` with no re-entrant effects logs the sorted
`[1, 2]`. -/
theorem flush_order_amended_witness :
    (∃ l1 l2, (flushSchedulerQueue (fun i => if i = 5 then [3] else []) 10
        (queueWatcher (queueWatcher idleSched 1) 5)).runLog = l1 ++ 5 :: l2 ∧
      5 ∉ l1 ∧ 1 ∈ l1) ∧
    (flushSchedulerQueue (fun _ => []) 5 (queueWatcher (queueWatcher idleSched 2) 1)).runLog
      = (queueWatcher (queueWatcher idleSched 2) 1).runLog
        ++ (queueWatcher (queueWatcher idleSched 2) 1).queue.insertionSort (· ≤ ·) := by
  constructor
  · exact flush_order_amended.1 (fun i => if i = 5 then [3] else []) 10
      (queueWatcher (queueWatcher idleSched 1) 5) 1 5 (by decide) (by decide)
      (by decide) (by decide) (by decide) (by decide)
  · exact (flush_order_amended.2 (queueWatcher (queueWatcher idleSched 2) 1) 5
      (by decide) (by decide)).1

/-- `queueWatcher` never writes a warning. -/
theorem queueWatcher_warnLog (s : SchedState) (wid : Nat) :
    (queueWatcher s wid).warnLog = s.warnLog :=
  (queueWatcher_frame s wid).1

/-- Neither does any sequence of re-entrant `queueWatcher` calls. -/
theorem foldl_queueWatcher_warnLog (l : List Nat) :
    ∀ (s : SchedState), (l.foldl queueWatcher s).warnLog = s.warnLog := by
  induction l with
  | nil => intro s; rfl
  | cons x xs ih =>
    intro s
    rw [List.foldl_cons, ih, queueWatcher_warnLog]

/-- One loop iteration either leaves the warning log alone (and continues)
or appends exactly one warning and breaks. -/
theorem flushStep_warnLog (effects : Nat → List Nat) (s : SchedState) :
    ((flushStep effects s).1.warnLog = s.warnLog ∧ (flushStep effects s).2 = false) ∨
    ((flushStep effects s).1.warnLog = s.warnLog ++ [s.queue.getD s.index 0] ∧
      (flushStep effects s).2 = true) := by
  rw [flushStep]
  simp only []
  set wid := s.queue.getD s.index 0 with hwid
  set s2 := (effects wid).foldl queueWatcher
    { s with has := s.has.erase wid, runLog := s.runLog ++ [wid] } with hs2
  have hw2 : s2.warnLog = s.warnLog := by
    rw [hs2, foldl_queueWatcher_warnLog]
  by_cases hmem : wid ∈ s2.has
  · rw [if_pos hmem]
    by_cases hcnt : MAX_UPDATE_COUNT < circCount s2.circular wid + 1
    · rw [if_pos hcnt]
      right
      exact ⟨by simp [hw2], rfl⟩
    · rw [if_neg hcnt]
      left
      exact ⟨by simp [hw2], rfl⟩
  · rw [if_neg hmem]
    exact Or.inl ⟨hw2, rfl⟩

/-- A whole loop run emits at most one warning (it breaks right after
warning). -/
theorem flushLoop_warnLog_le (effects : Nat → List Nat) :
    ∀ (fuel : Nat) (s : SchedState),
      (flushLoop effects fuel s).warnLog.length ≤ s.warnLog.length + 1 := by
  intro fuel
  induction fuel with
  | zero => intro s; rw [flushLoop]; omega
  | succ fuel ih =>
    intro s
    rw [flushLoop]
    by_cases hidx : s.index < s.queue.length
    · rw [if_pos hidx]
      rcases hstep : flushStep effects s with ⟨s1, brk⟩
      rcases flushStep_warnLog effects s with ⟨hw, hb⟩ | ⟨hw, hb⟩ <;>
        rw [hstep] at hw hb <;> dsimp only at hw hb <;> subst hb <;> dsimp only
      · exact le_trans (ih { s1 with index := s1.index + 1 })
          (Nat.add_le_add_right (Nat.le_of_eq (congrArg List.length hw)) 1)
      · rw [hw]
        simp
    · rw [if_neg hidx]
      omega

set_option maxRecDepth 100000 in
/-- C8: in a development build the scheduler keeps a per-watcher-id
re-enqueue counter during a flush; a flush warns at most once (the warning
breaks the loop), and on a watcher that always re-enqueues itself the flush
runs it exactly `MAX_UPDATE_COUNT + 1 = 101` times, then aborts with the
single warning naming that watcher. -/
theorem flush_circular_guard :
    MAX_UPDATE_COUNT = 100 ∧
    (∀ (effects : Nat → List Nat) (fuel : Nat) (s : SchedState),
      (flushLoop effects fuel s).warnLog.length ≤ s.warnLog.length + 1) ∧
    (flushSchedulerQueue (fun i => if i = 1 then [1] else []) 200
        (queueWatcher idleSched 1)).warnLog = [1] ∧
    (flushSchedulerQueue (fun i => if i = 1 then [1] else []) 200
        (queueWatcher idleSched 1)).runLog.length = MAX_UPDATE_COUNT + 1 := by
  refine ⟨rfl, flushLoop_warnLog_le, ?_, ?_⟩
  · decide
  · decide

/-- An address that resolves is in bounds. -/
theorem Heap.get_lt {h : Heap} {b : Nat} {o : JObj} (hb : h.get b = some o) :
    b < h.objs.length := by
  by_contra hge
  rw [Heap.get, List.getElem?_eq_none (by omega)] at hb
  exact Option.noConfusion hb

/-- An in-bounds address resolves. -/
theorem Heap.get_of_lt (h : Heap) {b : Nat} (hb : b < h.objs.length) :
    ∃ o, h.get b = some o := by
  rw [Heap.get, List.getElem?_eq_getElem hb]
  exact ⟨_, rfl⟩

/-- Allocation preserves every existing object. -/
theorem Heap.alloc_get_old {h : Heap} {b : Nat} {x : JObj} (o : JObj)
    (hb : h.get b = some x) : (h.alloc o).1.get b = some x := by
  have hlt := Heap.get_lt hb
  rw [Heap.alloc, Heap.get]
  rw [List.getElem?_append, if_pos hlt]
  exact hb

/-- The allocated object lives at the old length. -/
theorem Heap.alloc_get_new (h : Heap) (o : JObj) :
    (h.alloc o).1.get h.objs.length = some o := by
  rw [Heap.alloc, Heap.get]
  rw [List.getElem?_append, if_neg (by omega)]
  simp

/-- Allocation grows the heap by one. -/
theorem Heap.alloc_length (h : Heap) (o : JObj) :
    (h.alloc o).1.objs.length = h.objs.length + 1 := by
  rw [Heap.alloc]
  simp

/-- Reading back an allocated object: the old heap or the fresh slot. -/
theorem Heap.alloc_get_cases {h : Heap} {o x : JObj} {b : Nat}
    (hb : (h.alloc o).1.get b = some x) :
    h.get b = some x ∨ (b = h.objs.length ∧ x = o) := by
  rw [Heap.alloc, Heap.get, List.getElem?_append] at hb
  by_cases hlt : b < h.objs.length
  · rw [if_pos hlt] at hb
    exact Or.inl hb
  · rw [if_neg hlt] at hb
    by_cases hz : b - h.objs.length = 0
    · rw [hz] at hb
      simp only [List.getElem?_cons_zero, Option.some.injEq] at hb
      exact Or.inr ⟨by omega, hb.symm⟩
    · rw [List.getElem?_eq_none (by simp; omega)] at hb
      exact Option.noConfusion hb

/-- Modifying a different address is invisible. -/
theorem Heap.modify_get_ne (h : Heap) (a : Nat) (f : JObj → JObj) {b : Nat}
    (hne : a ≠ b) : (h.modifyObj a f).get b = h.get b := by
  rw [Heap.modifyObj]
  cases hget : h.get a with
  | none => rfl
  | some o =>
    show ({ objs := h.objs.set a (f o) } : Heap).get b = h.get b
    rw [Heap.get, Heap.get]
    exact List.getElem?_set_ne hne

/-- Modifying a live address applies the function. -/
theorem Heap.modify_get_self (h : Heap) (a : Nat) (f : JObj → JObj) {o : JObj}
    (hget : h.get a = some o) : (h.modifyObj a f).get a = some (f o) := by
  rw [Heap.modifyObj, hget]
  show ({ objs := h.objs.set a (f o) } : Heap).get a = some (f o)
  rw [Heap.get]
  exact List.getElem?_set_self (Heap.get_lt hget)

/-- Modifying a dead address is the identity. -/
theorem Heap.modify_none (h : Heap) (a : Nat) (f : JObj → JObj)
    (hget : h.get a = none) : h.modifyObj a f = h := by
  rw [Heap.modifyObj, hget]

/-- Modification never changes the heap size. -/
theorem Heap.modify_length (h : Heap) (a : Nat) (f : JObj → JObj) :
    (h.modifyObj a f).objs.length = h.objs.length := by
  rw [Heap.modifyObj]
  cases h.get a <;> simp

/-- Unfolding `hasObObserver` into an existence statement. -/
theorem hasObObserver_iff (h : Heap) (o : JObj) :
    hasObObserver h o = true ↔
      ∃ c oc, o.obField = some c ∧ h.get c = some oc ∧ oc.isObsInstance = true := by
  constructor
  · intro h1
    rw [hasObObserver] at h1
    cases hob : o.obField with
    | none => rw [hob] at h1; exact Bool.noConfusion h1
    | some c =>
      rw [hob] at h1
      dsimp only at h1
      cases hc : h.get c with
      | none => rw [hc] at h1; exact Bool.noConfusion h1
      | some oc =>
        rw [hc] at h1
        exact ⟨c, oc, rfl, hc, h1⟩
  · rintro ⟨c, oc, hof, hcg, hco⟩
    rw [hasObObserver]
    simp only [hof, hcg]
    exact hco

/-- Unfolding `obValid` into an existence statement. -/
theorem obValid_iff (h : Heap) (a : Nat) :
    obValid h a = true ↔ ∃ o, h.get a = some o ∧ hasObObserver h o = true := by
  constructor
  · intro h1
    rw [obValid] at h1
    cases hg : h.get a with
    | none => rw [hg] at h1; exact Bool.noConfusion h1
    | some o =>
      rw [hg] at h1
      dsimp only at h1
      exact ⟨o, rfl, h1⟩
  · rintro ⟨o, hg, hobs⟩
    rw [obValid]
    simp only [hg]
    exact hobs

theorem sameShape_refl (o : JObj) : sameShape o o :=
  ⟨rfl, rfl, rfl, rfl, rfl, rfl⟩

theorem sameShape_trans {o o2 o3 : JObj} (h1 : sameShape o o2)
    (h2 : sameShape o2 o3) : sameShape o o3 :=
  ⟨h2.1.trans h1.1, h2.2.1.trans h1.2.1, h2.2.2.1.trans h1.2.2.1,
    h2.2.2.2.1.trans h1.2.2.2.1, h2.2.2.2.2.1.trans h1.2.2.2.2.1,
    h2.2.2.2.2.2.trans h1.2.2.2.2.2⟩

theorem heapStep_refl (h : Heap) : heapStep h h :=
  ⟨fun _ o hb => ⟨o, hb, sameShape_refl o⟩, fun _ ha => ⟨ha, rfl⟩⟩

theorem heapStep_trans {h1 h2 h3 : Heap} (s12 : heapStep h1 h2)
    (s23 : heapStep h2 h3) : heapStep h1 h3 := by
  refine ⟨?_, ?_⟩
  · intro b o hb
    obtain ⟨o2, hb2, hs2⟩ := s12.1 b o hb
    obtain ⟨o3, hb3, hs3⟩ := s23.1 b o2 hb2
    exact ⟨o3, hb3, sameShape_trans hs2 hs3⟩
  · intro a ha
    obtain ⟨hv2, he2⟩ := s12.2 a ha
    obtain ⟨hv3, he3⟩ := s23.2 a hv2
    exact ⟨hv3, he3.trans he2⟩

/-- Allocation is a benign heap step. -/
theorem heapStep_alloc (h : Heap) (o : JObj) : heapStep h (h.alloc o).1 := by
  refine ⟨?_, ?_⟩
  · intro b x hb
    exact ⟨x, Heap.alloc_get_old o hb, sameShape_refl x⟩
  · intro a ha
    rcases (obValid_iff h a).mp ha with ⟨o0, hg, hobs⟩
    rcases (hasObObserver_iff h o0).mp hobs with ⟨c, oc, hof, hc, hco⟩
    have hg2 := Heap.alloc_get_old o hg
    have hc2 := Heap.alloc_get_old o hc
    refine ⟨?_, ?_⟩
    · rw [obValid_iff]
      exact ⟨o0, hg2, (hasObObserver_iff _ o0).mpr ⟨c, oc, hof, hc2, hco⟩⟩
    · simp only [obFieldAt, hg, hg2]

/-- Allocating an object without an `__ob__` field keeps the heap closed. -/
theorem closedHeap_alloc (h : Heap) (o : JObj) (ho : o.obField = none)
    (hc : ClosedHeap h) : ClosedHeap (h.alloc o).1 := by
  intro b x hb c hcf
  rw [Heap.alloc_length]
  rcases Heap.alloc_get_cases hb with hold | ⟨_, rfl⟩
  · have := hc b x hold c hcf
    omega
  · rw [ho] at hcf
    exact Option.noConfusion hcf

/-- A modification that only changes `vmCount` is a benign heap step. -/
theorem heapStep_bump (h : Heap) (ad : Nat) : heapStep h (h.bumpVmCount ad) := by
  have hget : ∀ b x, h.get b = some x →
      ∃ x2, (h.bumpVmCount ad).get b = some x2 ∧ sameShape x x2 ∧
        x2.obField = x.obField := by
    intro b x hb
    by_cases hab : ad = b
    · subst hab
      rw [Heap.bumpVmCount, Heap.modify_get_self h ad _ hb]
      exact ⟨_, rfl, ⟨rfl, rfl, rfl, rfl, rfl, rfl⟩, rfl⟩
    · rw [Heap.bumpVmCount, Heap.modify_get_ne h ad _ hab]
      exact ⟨x, hb, sameShape_refl x, rfl⟩
  refine ⟨fun b x hb => ?_, fun a ha => ?_⟩
  · obtain ⟨x2, hb2, hs2, _⟩ := hget b x hb
    exact ⟨x2, hb2, hs2⟩
  · rcases (obValid_iff h a).mp ha with ⟨o0, hg, hobs⟩
    rcases (hasObObserver_iff h o0).mp hobs with ⟨c, oc, hof, hcg, hco⟩
    obtain ⟨o1, hg1, hs1, he1⟩ := hget a o0 hg
    obtain ⟨oc1, hcg1, hsc1, _⟩ := hget c oc hcg
    refine ⟨?_, ?_⟩
    · rw [obValid_iff]
      refine ⟨o1, hg1, (hasObObserver_iff _ o1).mpr ⟨c, oc1, ?_, hcg1, ?_⟩⟩
      · rw [he1]; exact hof
      · rw [hsc1.2.1]; exact hco
    · simp only [obFieldAt, hg, hg1]
      exact he1

/-- Bumping a `vmCount` keeps the heap closed. -/
theorem closedHeap_bump (h : Heap) (ad : Nat) (hc : ClosedHeap h) :
    ClosedHeap (h.bumpVmCount ad) := by
  intro b x hb c hcf
  rw [Heap.bumpVmCount] at hb
  rw [Heap.bumpVmCount, Heap.modify_length]
  by_cases hab : ad = b
  · subst hab
    cases hga : h.get ad with
    | none => rw [Heap.modify_none h ad _ hga] at hb; exact hc ad x hb c hcf
    | some o =>
      rw [Heap.modify_get_self h ad _ hga] at hb
      cases hb
      exact hc ad o hga c hcf
  · rw [Heap.modify_get_ne h ad _ hab] at hb
    exact hc b x hb c hcf

/-- Writing the `__ob__` field of an address that did not yet hold a valid
observer is a benign heap step. -/
theorem heapStep_setOb (h : Heap) (a ob : Nat) (hvalid : obValid h a = false) :
    heapStep h (h.setObField a ob) := by
  have hget : ∀ b x, h.get b = some x →
      ∃ x2, (h.setObField a ob).get b = some x2 ∧ sameShape x x2 ∧
        (a ≠ b → x2.obField = x.obField) := by
    intro b x hb
    by_cases hab : a = b
    · subst hab
      rw [Heap.setObField, Heap.modify_get_self h a _ hb]
      exact ⟨_, rfl, ⟨rfl, rfl, rfl, rfl, rfl, rfl⟩, fun hne => absurd rfl hne⟩
    · rw [Heap.setObField, Heap.modify_get_ne h a _ hab]
      exact ⟨x, hb, sameShape_refl x, fun _ => rfl⟩
  refine ⟨fun b x hb => ?_, fun a2 ha2 => ?_⟩
  · obtain ⟨x2, hb2, hs2, _⟩ := hget b x hb
    exact ⟨x2, hb2, hs2⟩
  · have hne : a ≠ a2 := by
      rintro rfl
      rw [ha2] at hvalid
      exact Bool.noConfusion hvalid
    rcases (obValid_iff h a2).mp ha2 with ⟨o0, hg, hobs⟩
    rcases (hasObObserver_iff h o0).mp hobs with ⟨c, oc, hof, hcg, hco⟩
    obtain ⟨o1, hg1, hs1, he1⟩ := hget a2 o0 hg
    obtain ⟨oc1, hcg1, hsc1, _⟩ := hget c oc hcg
    refine ⟨?_, ?_⟩
    · rw [obValid_iff]
      refine ⟨o1, hg1, (hasObObserver_iff _ o1).mpr ⟨c, oc1, ?_, hcg1, ?_⟩⟩
      · rw [he1 hne]; exact hof
      · rw [hsc1.2.1]; exact hco
    · simp only [obFieldAt, hg, hg1]
      exact he1 hne

/-- Writing an in-bounds `__ob__` reference keeps the heap closed. -/
theorem closedHeap_setOb (h : Heap) (a ob : Nat) (hob : ob < h.objs.length)
    (hc : ClosedHeap h) : ClosedHeap (h.setObField a ob) := by
  intro b x hb c hcf
  rw [Heap.setObField] at hb
  rw [Heap.setObField, Heap.modify_length]
  by_cases hab : a = b
  · subst hab
    cases hga : h.get a with
    | none => rw [Heap.modify_none h a _ hga] at hb; exact hc a x hb c hcf
    | some o =>
      rw [Heap.modify_get_self h a _ hga] at hb
      cases hb
      simp only [Option.some.injEq] at hcf
      omega
  · rw [Heap.modify_get_ne h a _ hab] at hb
    exact hc b x hb c hcf

/-- The executable and propositional heap-closedness agree. -/
theorem closedHeapB_iff (h : Heap) : closedHeapB h = true ↔ ClosedHeap h := by
  rw [closedHeapB, List.all_eq_true]
  constructor
  · intro hall b o hb c hcf
    have hmem : o ∈ h.objs := List.getElem?_mem hb
    have := hall o hmem
    rw [hcf] at this
    simpa using this
  · intro hcl o hmem
    rcases List.mem_iff_getElem.mp hmem with ⟨n, hn, rfl⟩
    cases hof : (h.objs[n]).obField with
    | none => rfl
    | some c =>
      have : h.get n = some h.objs[n] := by
        rw [Heap.get, List.getElem?_eq_getElem hn]
      simpa using hcl n _ this c hof

/-- `observe` on a non-object. -/
theorem observeV_prim (so : Bool) (fuel : Nat) (h : Heap) (asRoot : Bool) :
    observeV so fuel h .prim asRoot = (h, none) := by
  cases fuel <;> rfl

/-- `observe` on a dangling reference. -/
theorem observeV_ref_none (so : Bool) (fuel : Nat) (h : Heap) (a : Nat)
    (asRoot : Bool) (hg : h.get a = none) :
    observeV so fuel h (.ref a) asRoot = (h, none) := by
  simp [observeV, hg]

/-- `observe` on a `VNode`. -/
theorem observeV_vnode (so : Bool) (fuel : Nat) (h : Heap) (a : Nat)
    (asRoot : Bool) (o : JObj) (hg : h.get a = some o) (hv : o.isVNode = true) :
    observeV so fuel h (.ref a) asRoot = (h, none) := by
  cases asRoot <;> simp [observeV, hg, hv]

/-- `observe` on a value whose own `__ob__` already holds an `Observer`:
return it, untouched heap. -/
theorem observeV_has (so : Bool) (fuel : Nat) (h : Heap) (a : Nat) (o : JObj)
    (hg : h.get a = some o) (hv : o.isVNode = false)
    (hob : hasObObserver h o = true) :
    observeV so fuel h (.ref a) false = (h, o.obField) := by
  cases hof : o.obField <;> simp [observeV, hg, hv, hob, hof]

/-- The same branch under `asRootData`: the returned observer's `vmCount`
is bumped. -/
theorem observeV_has_root (so : Bool) (fuel : Nat) (h : Heap) (a ad : Nat)
    (o : JObj) (hg : h.get a = some o) (hv : o.isVNode = false)
    (hob : hasObObserver h o = true) (hof : o.obField = some ad) :
    observeV so fuel h (.ref a) true = (h.bumpVmCount ad, some ad) := by
  simp [observeV, hg, hv, hob, hof]

/-- `observe` declining to observe (toggle off, non-plain, frozen, or a
component instance). -/
theorem observeV_skip (so : Bool) (fuel : Nat) (h : Heap) (a : Nat)
    (asRoot : Bool) (o : JObj) (hg : h.get a = some o) (hv : o.isVNode = false)
    (hob : hasObObserver h o = false)
    (hcond : (so && o.arrayOrPlain && o.extensible && !o.isVue) = false) :
    observeV so fuel h (.ref a) asRoot = (h, none) := by
  cases asRoot <;> simp [observeV, hg, hv, hob, hcond]

/-- The create branch out of fuel (never reached by the theorems, which
supply enough fuel). -/
theorem observeV_fuel0 (so : Bool) (h : Heap) (a : Nat) (asRoot : Bool)
    (o : JObj) (hg : h.get a = some o) (hv : o.isVNode = false)
    (hob : hasObObserver h o = false)
    (hcond : (so && o.arrayOrPlain && o.extensible && !o.isVue) = true) :
    observeV so 0 h (.ref a) asRoot = (h, none) := by
  cases asRoot <;> simp [observeV, hg, hv, hob, hcond]

/-- The create branch: `new Observer(value)`, returning the fresh observer's
address. -/
theorem observeV_create (so : Bool) (fuel : Nat) (h : Heap) (a : Nat)
    (o : JObj) (hg : h.get a = some o) (hv : o.isVNode = false)
    (hob : hasObObserver h o = false)
    (hcond : (so && o.arrayOrPlain && o.extensible && !o.isVue) = true) :
    observeV so (fuel + 1) h (.ref a) false
      = (observeCreateHeap so fuel h a o.children, some (obsAddrOf h a)) := by
  simp [observeV, observeCreateHeap, obsAddrOf, hg, hv, hob, hcond]

/-- The create branch under `asRootData`. -/
theorem observeV_create_root (so : Bool) (fuel : Nat) (h : Heap) (a : Nat)
    (o : JObj) (hg : h.get a = some o) (hv : o.isVNode = false)
    (hob : hasObObserver h o = false)
    (hcond : (so && o.arrayOrPlain && o.extensible && !o.isVue) = true) :
    observeV so (fuel + 1) h (.ref a) true
      = ((observeCreateHeap so fuel h a o.children).bumpVmCount (obsAddrOf h a),
         some (obsAddrOf h a)) := by
  simp [observeV, observeCreateHeap, obsAddrOf, hg, hv, hob, hcond]

/-- The create branch is a benign heap step, keeps the heap closed, and
leaves the observed value's `__ob__` pointing at the fresh observer; the
`hfold` hypothesis supplies the recursive behaviour of `observe` on the
children. -/
theorem observe_create_step (so : Bool) (fuel : Nat) (h : Heap) (a : Nat)
    (o : JObj) (hg : h.get a = some o) (hob : hasObObserver h o = false)
    (hc : ClosedHeap h)
    (hfold : ∀ (hh : Heap), ClosedHeap hh →
      heapStep hh (o.children.foldl (fun hh c => (observeV so fuel hh c false).1) hh) ∧
      ClosedHeap (o.children.foldl (fun hh c => (observeV so fuel hh c false).1) hh)) :
    heapStep h (observeCreateHeap so fuel h a o.children) ∧
    ClosedHeap (observeCreateHeap so fuel h a o.children) ∧
    obValid (observeCreateHeap so fuel h a o.children) a = true ∧
    obFieldAt (observeCreateHeap so fuel h a o.children) a = some (obsAddrOf h a) := by
  have halt : a < h.objs.length := Heap.get_lt hg
  have hgA : (h.alloc depObj).1.get a = some o := Heap.alloc_get_old _ hg
  have hgB : ((h.alloc depObj).1.alloc (obsObj (.ref a) (h.alloc depObj).2)).1.get a
      = some o := Heap.alloc_get_old _ hgA
  have hlenA : (h.alloc depObj).1.objs.length = h.objs.length + 1 :=
    Heap.alloc_length h depObj
  have hlenB : ((h.alloc depObj).1.alloc (obsObj (.ref a) (h.alloc depObj).2)).1.objs.length
      = h.objs.length + 2 := by
    rw [Heap.alloc_length, hlenA]
  have haddr : obsAddrOf h a = h.objs.length + 1 := by
    rw [show obsAddrOf h a = (h.alloc depObj).1.objs.length from rfl, hlenA]
  have hane : a ≠ obsAddrOf h a := by omega
  have hobB : hasObObserver
      ((h.alloc depObj).1.alloc (obsObj (.ref a) (h.alloc depObj).2)).1 o = false := by
    cases hof : o.obField with
    | none => simp only [hasObObserver, hof]
    | some c =>
      have hcb : c < h.objs.length := hc a o hg c hof
      obtain ⟨oc, hoc⟩ := Heap.get_of_lt h hcb
      have hocB : ((h.alloc depObj).1.alloc (obsObj (.ref a) (h.alloc depObj).2)).1.get c
          = some oc := Heap.alloc_get_old _ (Heap.alloc_get_old _ hoc)
      have hisobs : oc.isObsInstance = false := by
        cases hco : oc.isObsInstance
        · rfl
        · exfalso
          have hcontra : hasObObserver h o = true :=
            (hasObObserver_iff h o).mpr ⟨c, oc, hof, hoc, hco⟩
          rw [hob] at hcontra
          exact Bool.noConfusion hcontra
      simp only [hasObObserver, hof, hocB]
      exact hisobs
  have hvalidB : obValid
      ((h.alloc depObj).1.alloc (obsObj (.ref a) (h.alloc depObj).2)).1 a = false := by
    simp only [obValid, hgB]
    exact hobB
  have hstep3 : heapStep h
      (((h.alloc depObj).1.alloc (obsObj (.ref a) (h.alloc depObj).2)).1.setObField a
        (obsAddrOf h a)) :=
    heapStep_trans (heapStep_alloc h depObj)
      (heapStep_trans (heapStep_alloc _ _) (heapStep_setOb _ a _ hvalidB))
  have hclosed3 : ClosedHeap
      (((h.alloc depObj).1.alloc (obsObj (.ref a) (h.alloc depObj).2)).1.setObField a
        (obsAddrOf h a)) :=
    closedHeap_setOb _ a _ (by rw [hlenB, haddr]; omega)
      (closedHeap_alloc _ _ rfl (closedHeap_alloc h depObj rfl hc))
  have hg3 : (((h.alloc depObj).1.alloc (obsObj (.ref a) (h.alloc depObj).2)).1.setObField a
        (obsAddrOf h a)).get a = some { o with obField := some (obsAddrOf h a) } := by
    rw [Heap.setObField]
    exact Heap.modify_get_self _ a _ hgB
  have hgob3 : (((h.alloc depObj).1.alloc (obsObj (.ref a) (h.alloc depObj).2)).1.setObField a
        (obsAddrOf h a)).get (obsAddrOf h a)
      = some (obsObj (.ref a) (h.alloc depObj).2) := by
    rw [Heap.setObField, Heap.modify_get_ne _ a _ hane]
    exact Heap.alloc_get_new _ _
  have hvalid3 : obValid
      (((h.alloc depObj).1.alloc (obsObj (.ref a) (h.alloc depObj).2)).1.setObField a
        (obsAddrOf h a)) a = true := by
    rw [obValid_iff]
    exact ⟨_, hg3, (hasObObserver_iff _ _).mpr ⟨obsAddrOf h a, _, rfl, hgob3, rfl⟩⟩
  have hfield3 : obFieldAt
      (((h.alloc depObj).1.alloc (obsObj (.ref a) (h.alloc depObj).2)).1.setObField a
        (obsAddrOf h a)) a = some (obsAddrOf h a) := by
    simp only [obFieldAt, hg3]
  obtain ⟨hs34, hc4⟩ := hfold _ hclosed3
  obtain ⟨hvalid4, hfield4⟩ := hs34.2 a hvalid3
  exact ⟨heapStep_trans hstep3 hs34, hc4, hvalid4, hfield4.trans hfield3⟩

/-- C4 support: one `observe` call, at any fuel, only performs benign heap
steps and keeps the heap closed. -/
theorem observe_heapStep (so : Bool) :
    ∀ (fuel : Nat) (v : JVal) (asRoot : Bool) (h : Heap), ClosedHeap h →
      heapStep h (observeV so fuel h v asRoot).1 ∧
      ClosedHeap (observeV so fuel h v asRoot).1 := by
  intro fuel
  induction fuel with
  | zero =>
    intro v asRoot h hc
    cases v with
    | prim => rw [observeV_prim]; exact ⟨heapStep_refl h, hc⟩
    | ref a =>
      cases hg : h.get a with
      | none => rw [observeV_ref_none so 0 h a asRoot hg]; exact ⟨heapStep_refl h, hc⟩
      | some o =>
        by_cases hv : o.isVNode = true
        · rw [observeV_vnode so 0 h a asRoot o hg hv]; exact ⟨heapStep_refl h, hc⟩
        · have hv2 : o.isVNode = false := by simpa using hv
          by_cases hob : hasObObserver h o = true
          · cases asRoot with
            | false => rw [observeV_has so 0 h a o hg hv2 hob]; exact ⟨heapStep_refl h, hc⟩
            | true =>
              rcases (hasObObserver_iff h o).mp hob with ⟨c, oc, hof, _, _⟩
              rw [observeV_has_root so 0 h a c o hg hv2 hob hof]
              exact ⟨heapStep_bump h c, closedHeap_bump h c hc⟩
          · have hob2 : hasObObserver h o = false := by simpa using hob
            by_cases hcond : (so && o.arrayOrPlain && o.extensible && !o.isVue) = true
            · rw [observeV_fuel0 so h a asRoot o hg hv2 hob2 hcond]
              exact ⟨heapStep_refl h, hc⟩
            · have hcond2 : (so && o.arrayOrPlain && o.extensible && !o.isVue) = false := by
                simpa using hcond
              rw [observeV_skip so 0 h a asRoot o hg hv2 hob2 hcond2]
              exact ⟨heapStep_refl h, hc⟩
  | succ fuel ih =>
    intro v asRoot h hc
    have hfoldgen : ∀ (cs : List JVal) (hh : Heap), ClosedHeap hh →
        heapStep hh (cs.foldl (fun hh c => (observeV so fuel hh c false).1) hh) ∧
        ClosedHeap (cs.foldl (fun hh c => (observeV so fuel hh c false).1) hh) := by
      intro cs
      induction cs with
      | nil => intro hh hch; exact ⟨heapStep_refl hh, hch⟩
      | cons c cs ihc =>
        intro hh hch
        rw [List.foldl_cons]
        obtain ⟨hs1, hc1⟩ := ih c false hh hch
        obtain ⟨hs2, hc2⟩ := ihc _ hc1
        exact ⟨heapStep_trans hs1 hs2, hc2⟩
    cases v with
    | prim => rw [observeV_prim]; exact ⟨heapStep_refl h, hc⟩
    | ref a =>
      cases hg : h.get a with
      | none =>
        rw [observeV_ref_none so (fuel + 1) h a asRoot hg]
        exact ⟨heapStep_refl h, hc⟩
      | some o =>
        by_cases hv : o.isVNode = true
        · rw [observeV_vnode so (fuel + 1) h a asRoot o hg hv]
          exact ⟨heapStep_refl h, hc⟩
        · have hv2 : o.isVNode = false := by simpa using hv
          by_cases hob : hasObObserver h o = true
          · cases asRoot with
            | false =>
              rw [observeV_has so (fuel + 1) h a o hg hv2 hob]
              exact ⟨heapStep_refl h, hc⟩
            | true =>
              rcases (hasObObserver_iff h o).mp hob with ⟨c, oc, hof, _, _⟩
              rw [observeV_has_root so (fuel + 1) h a c o hg hv2 hob hof]
              exact ⟨heapStep_bump h c, closedHeap_bump h c hc⟩
          · have hob2 : hasObObserver h o = false := by simpa using hob
            by_cases hcond : (so && o.arrayOrPlain && o.extensible && !o.isVue) = true
            · obtain ⟨hstep, hclosed, _, _⟩ :=
                observe_create_step so fuel h a o hg hob2 hc
                  (fun hh hch => hfoldgen o.children hh hch)
              cases asRoot with
              | false =>
                rw [observeV_create so fuel h a o hg hv2 hob2 hcond]
                exact ⟨hstep, hclosed⟩
              | true =>
                rw [observeV_create_root so fuel h a o hg hv2 hob2 hcond]
                exact ⟨heapStep_trans hstep (heapStep_bump _ _),
                  closedHeap_bump _ _ hclosed⟩
            · have hcond2 : (so && o.arrayOrPlain && o.extensible && !o.isVue) = false := by
                simpa using hcond
              rw [observeV_skip so (fuel + 1) h a asRoot o hg hv2 hob2 hcond2]
              exact ⟨heapStep_refl h, hc⟩

/-- Observing a list of children in sequence is a benign heap step. -/
theorem observe_fold_step (so : Bool) (fuel : Nat) (cs : List JVal) :
    ∀ (hh : Heap), ClosedHeap hh →
      heapStep hh (cs.foldl (fun hh c => (observeV so fuel hh c false).1) hh) ∧
      ClosedHeap (cs.foldl (fun hh c => (observeV so fuel hh c false).1) hh) := by
  induction cs with
  | nil => intro hh hch; exact ⟨heapStep_refl hh, hch⟩
  | cons c cs ihc =>
    intro hh hch
    rw [List.foldl_cons]
    obtain ⟨hs1, hc1⟩ := observe_heapStep so fuel c false hh hch
    obtain ⟨hs2, hc2⟩ := ihc _ hc1
    exact ⟨heapStep_trans hs1 hs2, hc2⟩

/-- Counterexample to C4 as stated: a heap with a single plain extensible
record at address 0.  The inner `observe(v)` builds an `Observer` (returned
address 2, after its `Dep` at 1) and tags `v` with it; the outer call then
observes the *`Observer` instance itself* (it is a plain extensible object
with no own `__ob__`), constructing a fresh `Observer` — so
`observe(observe(v))` and `observe(v)` return different objects and the
equation `observe(observe(v)) === observe(v)` is false at this `v`. -/
theorem observe_composed_cex :
    closedHeapB ⟨[⟨false, false, true, true, false, none, 0, []⟩]⟩ = true ∧
    (observeV true 10 ⟨[⟨false, false, true, true, false, none, 0, []⟩]⟩
        (.ref 0) false).2 = some 2 ∧
    observeComposedCheck true 10 ⟨[⟨false, false, true, true, false, none, 0, []⟩]⟩
        (.ref 0) = false := by
  refine ⟨by decide, by decide, by decide⟩

/-- C4 (amended): `observe` is idempotent in the repeated-call sense: a
value that already carries an own `__ob__` holding an `Observer` gets that
observer back with the heap untouched, and consequently whenever
`observe(v)` returns an observer, calling `observe(v)` again (with any
recursion fuel) returns the same observer and changes nothing — but the
literal composition `observe(observe(v)) === observe(v)` fails (see the
counterexample), because the outer call observes the returned `Observer`
object itself. -/
theorem observe_idempotent_amended :
    (∀ (so : Bool) (fuel : Nat) (h : Heap) (a : Nat) (o : JObj),
      h.get a = some o → o.isVNode = false → hasObObserver h o = true →
      observeV so fuel h (.ref a) false = (h, o.obField)) ∧
    (∀ (so : Bool) (fuel fuel2 : Nat) (h h1 : Heap) (v : JVal) (ob : Nat),
      closedHeapB h = true →
      observeV so fuel h v false = (h1, some ob) →
      observeV so fuel2 h1 v false = (h1, some ob)) := by
  refine ⟨fun so fuel h a o hg hv hob => observeV_has so fuel h a o hg hv hob, ?_⟩
  intro so fuel fuel2 h h1 v ob hcb hrun
  have hc : ClosedHeap h := (closedHeapB_iff h).mp hcb
  cases v with
  | prim =>
    rw [observeV_prim] at hrun
    exact absurd (congrArg Prod.snd hrun) (by simp)
  | ref a =>
    cases hg : h.get a with
    | none =>
      rw [observeV_ref_none so fuel h a false hg] at hrun
      exact absurd (congrArg Prod.snd hrun) (by simp)
    | some o =>
      by_cases hv : o.isVNode = true
      · rw [observeV_vnode so fuel h a false o hg hv] at hrun
        exact absurd (congrArg Prod.snd hrun) (by simp)
      · have hv2 : o.isVNode = false := by simpa using hv
        by_cases hob : hasObObserver h o = true
        · rw [observeV_has so fuel h a o hg hv2 hob] at hrun
          have h1eq : h = h1 := congrArg Prod.fst hrun
          have hofeq : o.obField = some ob := congrArg Prod.snd hrun
          subst h1eq
          rw [observeV_has so fuel2 h a o hg hv2 hob, hofeq]
        · have hob2 : hasObObserver h o = false := by simpa using hob
          by_cases hcond : (so && o.arrayOrPlain && o.extensible && !o.isVue) = true
          · cases fuel with
            | zero =>
              rw [observeV_fuel0 so h a false o hg hv2 hob2 hcond] at hrun
              exact absurd (congrArg Prod.snd hrun) (by simp)
            | succ fuel3 =>
              rw [observeV_create so fuel3 h a o hg hv2 hob2 hcond] at hrun
              have h1eq : observeCreateHeap so fuel3 h a o.children = h1 :=
                congrArg Prod.fst hrun
              have hobeq : obsAddrOf h a = ob :=
                Option.some.inj (congrArg Prod.snd hrun)
              subst h1eq
              obtain ⟨hstep, _, hvalid, hfield⟩ :=
                observe_create_step so fuel3 h a o hg hob2 hc
                  (fun hh hch => observe_fold_step so fuel3 o.children hh hch)
              rcases (obValid_iff _ a).mp hvalid with ⟨o4, hg4, hob4⟩
              have hof4 : o4.obField = some ob := by
                simp only [obFieldAt, hg4] at hfield
                rw [hfield, hobeq]
              have hv4 : o4.isVNode = false := by
                obtain ⟨o4b, hg4b, hshape⟩ := hstep.1 a o hg
                rw [hg4] at hg4b
                cases hg4b
                rw [hshape.1]
                exact hv2
              rw [observeV_has so fuel2 _ a o4 hg4 hv4 hob4, hof4]
          · have hcond2 : (so && o.arrayOrPlain && o.extensible && !o.isVue) = false := by
              simpa using hcond
            rw [observeV_skip so fuel h a false o hg hv2 hob2 hcond2] at hrun
            exact absurd (congrArg Prod.snd hrun) (by simp)

/-- Witness for C4 (amended): on the one-record heap, the first `observe`
returns the observer at address 2; a second `observe` of the same value
(with different fuel) returns the same observer and the same heap. -/
theorem observe_idempotent_amended_witness :
    observeV true 4
        (observeV true 9 ⟨[⟨false, false, true, true, false, none, 0, []⟩]⟩
          (.ref 0) false).1 (.ref 0) false
      = ((observeV true 9 ⟨[⟨false, false, true, true, false, none, 0, []⟩]⟩
          (.ref 0) false).1, some 2) :=
  observe_idempotent_amended.2 true 9 4
    ⟨[⟨false, false, true, true, false, none, 0, []⟩]⟩ _ (.ref 0) 2
    (by decide) (by decide)

/-- A plain property write is read back by a lookup at the same key. -/
theorem assocGet_assocPut (l : List (SKey × Int)) (k : SKey) (v : Int) :
    assocGet (assocPut l k v) k = some v := by
  induction l with
  | nil =>
    simp [assocPut, assocGet]
  | cons p rest ih =>
    by_cases hp : p.1 = k
    · simp [assocPut, hp, assocGet]
    · simp only [assocPut, if_neg hp, assocGet]
      rw [List.find?_cons_of_neg _ (by simpa using hp)]
      exact ih

/-- The `set` array path writes the value at the index. -/
theorem arraySpliceSet_getD (elems : List (Option Int)) (k : Nat) (v : Int) :
    (arraySpliceSet elems k v).getD k none = some v := by
  rw [arraySpliceSet]
  have hpad : (elems ++ List.replicate (max elems.length k - elems.length) none).length
      = max elems.length k := by
    rw [List.length_append, List.length_replicate]
    omega
  have htake :
      ((elems ++ List.replicate (max elems.length k - elems.length) none).take k).length
        = k := by
    rw [List.length_take, hpad]
    omega
  rw [List.getD_eq_getElem?_getD, List.append_assoc, List.getElem?_append,
    if_neg (by omega)]
  rw [htake]
  simp

/-- The `set` array path produces length `max (old length) (key + 1)`. -/
theorem arraySpliceSet_length (elems : List (Option Int)) (k : Nat) (v : Int) :
    (arraySpliceSet elems k v).length = max elems.length (k + 1) := by
  rw [arraySpliceSet]
  have hpad : (elems ++ List.replicate (max elems.length k - elems.length) none).length
      = max elems.length k := by
    rw [List.length_append, List.length_replicate]
    omega
  rw [List.length_append, List.length_append, List.length_take, List.length_drop, hpad]
  simp
  omega

/-- C7 (amended): `set(target, key, val)` splices into an array at a valid
index (notifying the container dep exactly when the array is observed);
plainly assigns when the key is already present (and not only via
`Object.prototype`); refuses with a dev warning — touching nothing — on a
component instance or a root `$data` record; plainly assigns on an
*unobserved* record with no reactive definition and no notification; and
only on an observed, non-root record with a new key defines a reactive
property and notifies the container dep. -/
theorem setApi_behavior_amended :
    (∀ (a : ArrTarget) (n v : Int), 0 ≤ n →
      (setApi (.arr a) (.idx n) v).target
        = .arr { a with elems := arraySpliceSet a.elems n.toNat v } ∧
      (arraySpliceSet a.elems n.toNat v).getD n.toNat none = some v ∧
      (arraySpliceSet a.elems n.toNat v).length = max a.elems.length (n.toNat + 1) ∧
      (setApi (.arr a) (.idx n) v).notifiedContainer = a.ob.isSome ∧
      (setApi (.arr a) (.idx n) v).warned = false ∧
      (setApi (.arr a) (.idx n) v).definedReactive = false) ∧
    (∀ (r : RecTarget) (k : SKey) (v : Int), recKeyPresent r k = true →
      (setApi (.record r) k v).target
        = .record { r with fields := assocPut r.fields k v } ∧
      assocGet (assocPut r.fields k v) k = some v ∧
      (setApi (.record r) k v).warned = false ∧
      (setApi (.record r) k v).notifiedContainer = false ∧
      (setApi (.record r) k v).definedReactive = false) ∧
    (∀ (r : RecTarget) (k : SKey) (v : Int), recKeyPresent r k = false →
      (r.isVue || obVmPositive r.ob) = true →
      (setApi (.record r) k v).warned = true ∧
      (setApi (.record r) k v).target = .record r ∧
      (setApi (.record r) k v).notifiedContainer = false ∧
      (setApi (.record r) k v).definedReactive = false) ∧
    (∀ (r : RecTarget) (k : SKey) (v : Int), recKeyPresent r k = false →
      (r.isVue || obVmPositive r.ob) = false → r.ob = none →
      (setApi (.record r) k v).target
        = .record { r with fields := assocPut r.fields k v } ∧
      (setApi (.record r) k v).warned = false ∧
      (setApi (.record r) k v).notifiedContainer = false ∧
      (setApi (.record r) k v).definedReactive = false) ∧
    (∀ (r : RecTarget) (k : SKey) (v : Int), recKeyPresent r k = false →
      (r.isVue || obVmPositive r.ob) = false → r.ob.isSome = true →
      (setApi (.record r) k v).definedReactive = true ∧
      (setApi (.record r) k v).notifiedContainer = true ∧
      (setApi (.record r) k v).warned = false ∧
      (setApi (.record r) k v).target
        = .record { r with fields := assocPut r.fields k v } ∧
      assocGet (assocPut r.fields k v) k = some v) := by
  refine ⟨?_, ?_, ?_, ?_, ?_⟩
  · intro a n v hn
    have hvalid : isValidArrayIndex (SKey.idx n) = true := by
      simp [isValidArrayIndex, hn]
    refine ⟨?_, arraySpliceSet_getD a.elems n.toNat v,
      arraySpliceSet_length a.elems n.toNat v, ?_, ?_, ?_⟩ <;>
      simp [setApi, hvalid]
  · intro r k v hp
    exact ⟨by simp [setApi, hp], assocGet_assocPut r.fields k v,
      by simp [setApi, hp], by simp [setApi, hp], by simp [setApi, hp]⟩
  · intro r k v hp hguard
    refine ⟨?_, ?_, ?_, ?_⟩ <;> simp [setApi, hp, hguard]
  · intro r k v hp hguard hob
    have hcomp : r.isVue = false ∧ obVmPositive r.ob = false := by simpa using hguard
    refine ⟨?_, ?_, ?_, ?_⟩ <;> simp [setApi, hp, hob, hcomp.1, hcomp.2, obVmPositive]
  · intro r k v hp hguard hob
    have hcomp : r.isVue = false ∧ obVmPositive r.ob = false := by simpa using hguard
    have hnone : r.ob.isNone = false := by
      cases hcase : r.ob
      · rw [hcase] at hob; exact Bool.noConfusion hob
      · rfl
    refine ⟨?_, ?_, ?_, ?_, assocGet_assocPut r.fields k v⟩ <;>
      simp [setApi, hp, hcomp.1, hcomp.2, hnone]

/-- Witness for C7 (amended): all five branches at concrete inputs —
`set([9], 2, 5)` on an observed array, assignment to an existing key,
refusal on a component instance, plain assignment on an unobserved record,
and reactive definition plus notification on an observed record. -/
theorem setApi_behavior_amended_witness :
    (setApi (.arr ⟨[some 9], [], some 0⟩) (.idx 2) 5).target
      = .arr ⟨[some 9, none, some 5], [], some 0⟩ ∧
    (setApi (.arr ⟨[some 9], [], some 0⟩) (.idx 2) 5).notifiedContainer = true ∧
    (setApi (.record ⟨[(.str "a", 1)], false, some 0⟩) (.str "a") 7).target
      = .record ⟨[(.str "a", 7)], false, some 0⟩ ∧
    (setApi (.record ⟨[], true, none⟩) (.str "x") 1).warned = true ∧
    (setApi (.record ⟨[], false, none⟩) (.str "x") 1).definedReactive = false ∧
    (setApi (.record ⟨[], false, some 0⟩) (.str "x") 1).definedReactive = true ∧
    (setApi (.record ⟨[], false, some 0⟩) (.str "x") 1).notifiedContainer = true := by
  have h1 := setApi_behavior_amended.1 ⟨[some 9], [], some 0⟩ 2 5 (by decide)
  have h3 := setApi_behavior_amended.2.2.1 ⟨[], true, none⟩ (.str "x") 1
    (by decide) (by decide)
  have h4 := setApi_behavior_amended.2.2.2.1 ⟨[], false, none⟩ (.str "x") 1
    (by decide) (by decide) rfl
  have h5 := setApi_behavior_amended.2.2.2.2 ⟨[], false, some 0⟩ (.str "x") 1
    (by decide) (by decide) rfl
  refine ⟨?_, ?_, ?_, h3.1, h4.2.2.2, h5.1, h5.2.1⟩
  · rw [h1.1]
    decide
  · rw [h1.2.2.2.1]
    decide
  · rw [(setApi_behavior_amended.2.1 ⟨[(.str "a", 1)], false, some 0⟩ (.str "a") 7
      (by decide)).1]
    decide

end VueModel
